import Mathlib

/-!
# turc: a Turing-machine interpreter (`src/turc.c`)

A shallow embedding of the description parser (`parse_machine`), of the tape
seeding done by `main`, and of the simulation loop (`run_machine`).

Conventions of the embedding.

* A C `char` is a `Char`; the program only copies characters and compares them
  for equality.
* A C string (`char*` produced by `strndup`) is the list of its characters
  before the terminator; `strcmp(a, b) == 0` is equality of those lists.
* A `const char*` walking through a buffer is the list of the characters from
  the pointer to the end of the allocation.  Reading through a pointer that has
  left the buffer is an out-of-bounds read and is reported as such.
* Allocation (`malloc`, `calloc`, `realloc`) is assumed to succeed and `size_t`
  arithmetic is done in `Nat`: the counters are positions inside allocated
  buffers.  The section on the limits of the machine drops both assumptions for
  the simulation loop: there `realloc` may fail and `size_t` wraps around at
  `2 ^ 64`.
-/

namespace Turc

/-- The terminator `'\0'`. -/
def NUL : Char := Char.ofNat 0

/-- Result of the lookup of `run_machine`: a value, `NULL`, or a read outside
the tape (undefined behaviour in C). -/
inductive Outcome (α : Type) where
  | ok (a : α)
  | null
  | out_of_bounds
  deriving DecidableEq, Repr

/-- `strndup(s, n)`: the loop stops at `n` characters or at the first `'\0'`,
whichever comes first, and that many characters are copied. -/
def strndup (s : List Char) (n : Nat) : List Char :=
  (s.take n).takeWhile (fun c => c ≠ NUL)

/-- `strlen(s)`: number of characters before the first `'\0'`. -/
def strlen (s : List Char) : Nat :=
  (s.takeWhile (fun c => c ≠ NUL)).length

/-- `read_file`: the buffer holds the bytes of the file followed by `'\0'`
(`buffer[bytes_read] = '\0'`, allocation of `file_size + 1`). -/
def read_file (content : List Char) : List Char :=
  content ++ [NUL]

/-- Result of `parse_machine` and of its loop body: a value, `NULL`, a read
outside the buffer, or a call of `free` on a pointer that was never assigned
(the last two are undefined behaviour in C). -/
inductive ParseOutcome (α : Type) where
  | ok (a : α)
  | null
  | out_of_bounds
  | invalid_free
  deriving DecidableEq, Repr

inductive Direction where
  | LEFT
  | RIGHT
  deriving DecidableEq, Repr

structure Transition where
  state : List Char
  new_state : List Char
  value : Char
  new_value : Char
  direction : Direction
  deriving DecidableEq, Repr

/-- The `Machine` struct; `transition_count` is the length of `transitions`. -/
structure Machine where
  initial_state : List Char
  default_value : Char
  transitions : List Transition
  deriving DecidableEq, Repr

def Machine.transition_count (m : Machine) : Nat :=
  m.transitions.length

/-- The `Tape` struct; `capacity` is the allocated length of `values`
(`create_tape`, `main` and the growth branch of `run_machine` always set the
two together). -/
structure Tape where
  values : List Char
  deriving DecidableEq, Repr

def Tape.capacity (t : Tape) : Nat :=
  t.values.length

/-! ## parse_machine -/

/-- The loop `while (*source != c) source++;`: the pointer where it stops,
or `none` when it leaves the buffer without finding `c`. -/
def skip_until (c : Char) : List Char → Option (List Char)
  | [] => none
  | x :: xs => if x = c then some (x :: xs) else skip_until c xs

/-- The loop `while (*source != '\n' && *source != '\0') source++;`. -/
def skip_line : List Char → Option (List Char)
  | [] => none
  | x :: xs => if x = '\n' ∨ x = NUL then some (x :: xs) else skip_line xs

/-- `strncmp(source, lit, n) == 0`, where `lit` is the literal with its
terminator; `none` when `source` is read outside the buffer. -/
def strncmp_eq : List Char → List Char → Nat → Option Bool
  | _, _, 0 => some true
  | [], _, _ + 1 => none
  | _ :: _, [], _ + 1 => some false
  | x :: xs, y :: ys, n + 1 =>
    if x ≠ y then some false
    else if x = NUL then some true
    else strncmp_eq xs ys n

/-- One iteration of the transition loop of `parse_machine` (lines 116-160):
the transition read and the pointer after `source++; // skip newline`.
When the direction is neither `<-` nor `->` the code calls
`free_machine(machine)` before `return NULL` (lines 147-148).  The entry that
`realloc` added in this iteration (line 116) has its `state` assigned
(line 125) and its `new_state` not yet assigned (line 158), and
`free_transition` frees both (lines 78-79): `free` is called on an
indeterminate pointer. -/
def parse_transition (source : List Char) : ParseOutcome (Transition × List Char) :=
  -- read state
  let start := source
  match skip_until ' ' source with
  | none => .out_of_bounds
  | some source =>
    let state := strndup start (start.length - source.length)
    let source := source.drop 1 -- skip space
    -- read value
    match source with
    | [] => .out_of_bounds
    | value :: source =>
      let source := source.drop 1 -- skip space
      -- read new value
      match source with
      | [] => .out_of_bounds
      | new_value :: source =>
        let source := source.drop 1 -- skip space
        -- read new state
        let finish (direction : Direction) (source : List Char) :
            ParseOutcome (Transition × List Char) :=
          let source := source.drop 1 -- skip space
          let start := source
          match skip_line source with
          | none => .out_of_bounds
          | some source =>
            let new_state := strndup start (start.length - source.length)
            .ok (⟨state, new_state, value, new_value, direction⟩, source.drop 1)
        -- read direction
        match strncmp_eq source ['<', '-', NUL] 2 with
        | none => .out_of_bounds
        | some true => finish Direction.LEFT (source.drop 2)
        | some false =>
          match strncmp_eq source ['-', '>', NUL] 2 with
          | none => .out_of_bounds
          | some true => finish Direction.RIGHT (source.drop 2)
          | some false => .invalid_free -- free_machine(machine); return NULL;

/-- The loop `while (*source != '\0') { ... }` of `parse_machine`, bounded by
`fuel` iterations; `none` when the bound is reached. -/
def parse_transitions : Nat → List Char → Machine → Option (ParseOutcome Machine)
  | 0, _, _ => none
  | fuel + 1, source, machine =>
    match source with
    | [] => some .out_of_bounds
    | c :: _ =>
      if c = NUL then some (.ok machine)
      else
        match parse_transition source with
        | .out_of_bounds => some .out_of_bounds
        | .invalid_free => some .invalid_free
        | .null => some .null
        | .ok (transition, source) =>
          parse_transitions fuel source
            { machine with transitions := machine.transitions ++ [transition] }

/-- `parse_machine(source)`; `source` is `none` for the `NULL` pointer and
otherwise the buffer the pointer points into.  Every iteration of the
transition loop advances the pointer, so the length of the buffer bounds
the number of iterations. -/
def parse_machine : Option (List Char) → Option (ParseOutcome Machine)
  | none => some .null
  | some source =>
    -- read initial state
    let start := source
    match skip_until '\n' source with
    | none => some .out_of_bounds
    | some source =>
      let initial_state := strndup start (start.length - source.length)
      let source := source.drop 1 -- skip newline
      -- read default value
      match source with
      | [] => some .out_of_bounds
      | default_value :: source =>
        let source := source.drop 1 -- skip newline
        -- read transitions
        parse_transitions (source.length + 1) source ⟨initial_state, default_value, []⟩

/-! ## run_machine -/

/-- Where the simulation loop stands. -/
inductive Status where
  | running
  | no_transition   -- "transition not found, halting"
  | out_of_bounds   -- "head moved out of bounds"
  | invalid_access  -- a tape access outside the allocation
  deriving DecidableEq, Repr

/-- The variables of `run_machine` at the top of a loop iteration (or where
the loop was left). -/
structure Config where
  status : Status
  state : List Char
  head : Nat
  tape : Tape
  deriving DecidableEq, Repr

/-- The lookup loop (lines 172-179).  `tape->values[head]` is only read for a
transition whose state matches (`&&` short-circuits). -/
def find_transition : List Transition → List Char → Tape → Nat → Outcome Transition
  | [], _, _, _ => .null
  | t :: ts, state, tape, head =>
    if t.state = state then
      match tape.values[head]? with
      | none => .out_of_bounds
      | some v => if t.value = v then .ok t else find_transition ts state tape head
    else find_transition ts state tape head

/-- The growth branch (lines 204-208): when `head >= capacity` the capacity is
doubled and the cells from `head` to the new capacity are set to the default
value.  `none` when `head` is beyond the old capacity: the `memset` then does
not cover exactly the cells added by `realloc` (cells below `head` are left
uninitialised, or its length `capacity - head` wraps around).  The doubling
is computed in `Nat` and `realloc` is taken to succeed, which is exact for a
tape of fewer than `2 ^ 63` cells while memory lasts; `grow_size_t` is the
branch without these two assumptions. -/
def grow (default_value : Char) (tape : Tape) (head : Nat) : Option Tape :=
  if head ≥ tape.capacity then
    let capacity := tape.capacity * 2
    if head = tape.capacity then
      some ⟨tape.values ++ List.replicate (capacity - head) default_value⟩
    else none
  else some tape

/-- The body of the loop once a transition is selected (lines 186-208). -/
def apply_transition (machine : Machine) (transition : Transition) (c : Config) : Config :=
  -- update state
  let state := transition.new_state
  -- write to tape
  let tape : Tape := ⟨c.tape.values.set c.head transition.new_value⟩
  -- move head
  match transition.direction with
  | Direction.LEFT =>
    if c.head = 0 then ⟨Status.out_of_bounds, state, c.head, tape⟩
    else
      match grow machine.default_value tape (c.head - 1) with
      | none => ⟨Status.invalid_access, state, c.head - 1, tape⟩
      | some tape => ⟨Status.running, state, c.head - 1, tape⟩
  | Direction.RIGHT =>
    match grow machine.default_value tape (c.head + 1) with
    | none => ⟨Status.invalid_access, state, c.head + 1, tape⟩
    | some tape => ⟨Status.running, state, c.head + 1, tape⟩

/-- One iteration of `while (1)` in `run_machine`. -/
def step (machine : Machine) (c : Config) : Config :=
  match c.status with
  | Status.running =>
    match find_transition machine.transitions c.state c.tape c.head with
    | .out_of_bounds => { c with status := Status.invalid_access }
    | .null => { c with status := Status.no_transition }
    | .ok transition => apply_transition machine transition c
  | _ => c

/-- The configuration on entry to the loop. -/
def initial_config (machine : Machine) (tape : Tape) : Config :=
  ⟨Status.running, machine.initial_state, 0, tape⟩

/-- `run_machine(machine, tape)` after at most `n` iterations of its loop. -/
def run_machine (machine : Machine) (tape : Tape) (n : Nat) : Config :=
  (step machine)^[n] (initial_config machine tape)

/-- The tape `main` hands to `run_machine` (lines 266-270): `strlen(source)`
cells copied from the buffer of the input file. -/
def seed_tape (source : List Char) : Tape :=
  ⟨source.take (strlen source)⟩

/-- The largest head index among the configurations of a run up to its
`n`-th iteration, the configuration on entry included. -/
def max_head (machine : Machine) (tape : Tape) : Nat → Nat
  | 0 => (run_machine machine tape 0).head
  | n + 1 => max (max_head machine tape n) (run_machine machine tape (n + 1)).head

/-! ## run_machine with the limits of the machine

`grow`, `apply_transition`, `step` and `run_machine` above compute in `Nat`
and take every `realloc` to succeed.  That is exact as long as the tape has
fewer than `2 ^ 63` cells and memory lasts (`step_size_t_eq_step` below); the
definitions of this section keep the arithmetic of `size_t` and let `realloc`
fail. -/

/-- The number of values of `size_t`, taken to be 64 bits wide. -/
def size_t_range : Nat := 2 ^ 64

/-- The growth branch (lines 204-208) with the arithmetic of `size_t` and a
`realloc` that may fail: `alloc n` tells whether `realloc` to `n` cells
succeeds.  `capacity *= 2` is computed modulo `size_t_range`.  `none` when
`realloc` returns `NULL` (the result is not checked and `memset` writes
through it), and when the `memset` does not cover exactly the cells added
(cells below `head` are left uninitialised, or its length `capacity - head`
wraps around). -/
def grow_size_t (alloc : Nat → Bool) (default_value : Char) (tape : Tape) (head : Nat) :
    Option Tape :=
  if head ≥ tape.capacity then
    let capacity := tape.capacity * 2 % size_t_range
    if alloc capacity = true ∧ head = tape.capacity ∧ head ≤ capacity then
      some ⟨tape.values ++ List.replicate (capacity - head) default_value⟩
    else none
  else some tape

/-- The body of the loop once a transition is selected (lines 186-208), with
`head++` computed modulo `size_t_range` and the growth branch above. -/
def apply_transition_size_t (alloc : Nat → Bool) (machine : Machine)
    (transition : Transition) (c : Config) : Config :=
  -- update state
  let state := transition.new_state
  -- write to tape
  let tape : Tape := ⟨c.tape.values.set c.head transition.new_value⟩
  -- move head
  match transition.direction with
  | Direction.LEFT =>
    if c.head = 0 then ⟨Status.out_of_bounds, state, c.head, tape⟩
    else
      match grow_size_t alloc machine.default_value tape (c.head - 1) with
      | none => ⟨Status.invalid_access, state, c.head - 1, tape⟩
      | some tape => ⟨Status.running, state, c.head - 1, tape⟩
  | Direction.RIGHT =>
    let head := (c.head + 1) % size_t_range
    match grow_size_t alloc machine.default_value tape head with
    | none => ⟨Status.invalid_access, state, head, tape⟩
    | some tape => ⟨Status.running, state, head, tape⟩

/-- One iteration of `while (1)` in `run_machine`, with the limits of the
machine. -/
def step_size_t (alloc : Nat → Bool) (machine : Machine) (c : Config) : Config :=
  match c.status with
  | Status.running =>
    match find_transition machine.transitions c.state c.tape c.head with
    | .out_of_bounds => { c with status := Status.invalid_access }
    | .null => { c with status := Status.no_transition }
    | .ok transition => apply_transition_size_t alloc machine transition c
  | _ => c

/-- `run_machine(machine, tape)` after at most `n` iterations of its loop,
with the limits of the machine. -/
def run_machine_size_t (alloc : Nat → Bool) (machine : Machine) (tape : Tape) (n : Nat) :
    Config :=
  (step_size_t alloc machine)^[n] (initial_config machine tape)

/-- The machine with initial state `q0`, default value `_` and the single
transition `q0 _ _ -> q0`. -/
def blank_loop : Machine :=
  ⟨"q0".toList, '_', [⟨"q0".toList, "q0".toList, '_', '_', Direction.RIGHT⟩]⟩

end Turc

/-! ## The description format -/

namespace Turc

/-- The direction token of a transition line: `<-` for LEFT, `->` for RIGHT. -/
def direction_token : Direction → List Char
  | Direction.LEFT => ['<', '-']
  | Direction.RIGHT => ['-', '>']

/-- The transition line `state value new_value direction new_state`, with
single spaces between the fields and a newline at the end. -/
def transition_line (t : Transition) : List Char :=
  t.state ++ ' ' :: t.value :: ' ' :: t.new_value :: ' ' ::
    (direction_token t.direction ++ ' ' :: (t.new_state ++ ['\n']))

/-- The transition lines of a table, in order. -/
def transition_lines : List Transition → List Char
  | [] => []
  | t :: ts => transition_line t ++ transition_lines ts

/-- The description text: line 1 the initial state, line 2 the default value,
then the transition lines. -/
def description_text (initial_state : List Char) (default_value : Char)
    (lines : List Transition) : List Char :=
  initial_state ++ '\n' :: default_value :: '\n' :: transition_lines lines

/-- The transition line with the three separators that `parse_machine` steps
over without reading them (after the value, after the new value, after the
direction token) set to `s1`, `s2`, `s3`. -/
def transition_line_with (t : Transition) (s1 s2 s3 : Char) : List Char :=
  t.state ++ ' ' :: t.value :: s1 :: t.new_value :: s2 ::
    (direction_token t.direction ++ s3 :: (t.new_state ++ ['\n']))

/-- The transition lines of a table, each with its own three separators. -/
def transition_lines_with : List (Transition × Char × Char × Char) → List Char
  | [] => []
  | (t, s1, s2, s3) :: ls => transition_line_with t s1 s2 s3 ++ transition_lines_with ls

/-- The description text with the character after the default value set to
`s0` and the three unread separators of every transition line set as given
with the line. -/
def description_text_with (initial_state : List Char) (default_value : Char) (s0 : Char)
    (lines : List (Transition × Char × Char × Char)) : List Char :=
  initial_state ++ '\n' :: default_value :: s0 :: transition_lines_with lines

end Turc

namespace Turc

/-! ## Lemmas on the simulation loop -/

theorem step_of_not_running (m : Machine) (c : Config) (h : c.status ≠ Status.running) :
    step m c = c := by
  unfold step
  cases hs : c.status <;> simp_all

theorem iterate_step_of_not_running (m : Machine) (c : Config)
    (h : c.status ≠ Status.running) (k : Nat) : (step m)^[k] c = c :=
  Function.iterate_fixed (step_of_not_running m c h) k

theorem run_machine_succ (m : Machine) (tape : Tape) (n : Nat) :
    run_machine m tape (n + 1) = step m (run_machine m tape n) := by
  unfold run_machine
  exact Function.iterate_succ_apply' (step m) n _

theorem run_machine_add (m : Machine) (tape : Tape) (n k : Nat) :
    run_machine m tape (n + k) = (step m)^[k] (run_machine m tape n) := by
  unfold run_machine
  rw [Nat.add_comm, Function.iterate_add_apply]

/-- Once the loop is left the configuration no longer changes. -/
theorem run_machine_halted (m : Machine) (tape : Tape) (n k : Nat)
    (h : (run_machine m tape n).status ≠ Status.running) :
    run_machine m tape (n + k) = run_machine m tape n := by
  rw [run_machine_add, iterate_step_of_not_running m _ h]

/-- A successful lookup has read the cell under the head, and the transition
it returns is in the table and matches the state and that cell. -/
theorem find_transition_ok {ts : List Transition} {state : List Char} {tape : Tape}
    {head : Nat} {t : Transition} (h : find_transition ts state tape head = .ok t) :
    t ∈ ts ∧ t.state = state ∧ tape.values[head]? = some t.value := by
  induction ts with
  | nil => simp [find_transition] at h
  | cons u us ih =>
    unfold find_transition at h
    split at h
    · rename_i hst
      split at h
      · simp at h
      · rename_i v hv
        split at h
        · rename_i hval
          simp only [Outcome.ok.injEq] at h
          subst h
          exact ⟨List.mem_cons_self _ _, hst, by rw [hv, hval]⟩
        · have := ih h
          exact ⟨List.mem_cons_of_mem _ this.1, this.2⟩
    · have := ih h
      exact ⟨List.mem_cons_of_mem _ this.1, this.2⟩

/-- The lookup returns the entry of least index that matches. -/
theorem find_transition_least (ts : List Transition) (state : List Char) (tape : Tape)
    (head : Nat) (v : Char) (hv : tape.values[head]? = some v) (i : Nat) (t : Transition)
    (hi : ts[i]? = some t) (hmatch : t.state = state ∧ t.value = v)
    (hmin : ∀ j u, j < i → ts[j]? = some u → ¬ (u.state = state ∧ u.value = v)) :
    find_transition ts state tape head = .ok t := by
  induction ts generalizing i with
  | nil => simp at hi
  | cons u us ih =>
    cases i with
    | zero =>
      simp only [List.getElem?_cons_zero, Option.some.injEq] at hi
      subst hi
      simp [find_transition, hmatch.1, hmatch.2, hv]
    | succ i =>
      simp only [List.getElem?_cons_succ] at hi
      have h0 := hmin 0 u (Nat.succ_pos i) (by simp)
      have hrec := ih i hi (fun j w hj hw => hmin (j + 1) w (by omega) (by simpa using hw))
      unfold find_transition
      by_cases hst : u.state = state
      · have hval : u.value ≠ v := fun hval => h0 ⟨hst, hval⟩
        simp [hst, hv, hval, hrec]
      · simp [hst, hrec]

/-- The lookup finds nothing when no entry matches the state and the cell
under the head. -/
theorem find_transition_none (ts : List Transition) (state : List Char) (tape : Tape)
    (head : Nat) (v : Char) (hv : tape.values[head]? = some v)
    (hno : ∀ t, t ∈ ts → ¬ (t.state = state ∧ t.value = v)) :
    find_transition ts state tape head = .null := by
  induction ts with
  | nil => rfl
  | cons u us ih =>
    have h0 := hno u (List.mem_cons_self _ _)
    have hrec := ih (fun t ht => hno t (List.mem_cons_of_mem _ ht))
    unfold find_transition
    by_cases hst : u.state = state
    · have hval : u.value ≠ v := fun hval => h0 ⟨hst, hval⟩
      simp [hst, hv, hval, hrec]
    · simp [hst, hrec]

theorem step_of_find_ok (m : Machine) (c : Config) (t : Transition)
    (hrun : c.status = Status.running)
    (hfind : find_transition m.transitions c.state c.tape c.head = .ok t) :
    step m c = apply_transition m t c := by
  unfold step
  rw [hrun]
  simp only [hfind]

theorem step_of_find_null (m : Machine) (c : Config)
    (hrun : c.status = Status.running)
    (hfind : find_transition m.transitions c.state c.tape c.head = .null) :
    step m c = { c with status := Status.no_transition } := by
  unfold step
  rw [hrun]
  simp only [hfind]

/-! ## Lemmas on the parser -/

theorem skip_until_append (c : Char) (pre rest : List Char) (h : c ∉ pre) :
    skip_until c (pre ++ c :: rest) = some (c :: rest) := by
  induction pre with
  | nil => simp [skip_until]
  | cons x xs ih =>
    have hx : x ≠ c := fun e => h (by simp [e])
    have hxs : c ∉ xs := fun e => h (List.mem_cons_of_mem _ e)
    simp [skip_until, hx, ih hxs]

theorem skip_line_append (pre rest : List Char) (x : Char) (hn : '\n' ∉ pre)
    (hz : NUL ∉ pre) (hx : x = '\n' ∨ x = NUL) :
    skip_line (pre ++ x :: rest) = some (x :: rest) := by
  induction pre with
  | nil => simp [skip_line, hx]
  | cons y ys ih =>
    have hy1 : y ≠ '\n' := fun e => hn (by simp [e])
    have hy2 : y ≠ NUL := fun e => hz (by simp [e])
    have h1 : '\n' ∉ ys := fun e => hn (List.mem_cons_of_mem _ e)
    have h2 : NUL ∉ ys := fun e => hz (List.mem_cons_of_mem _ e)
    simp [skip_line, hy1, hy2, ih h1 h2]

theorem takeWhile_ne_NUL (pre : List Char) (h : NUL ∉ pre) :
    pre.takeWhile (fun c => c ≠ NUL) = pre := by
  rw [List.takeWhile_eq_self_iff]
  intro x hx
  have hne : x ≠ NUL := fun e => h (e ▸ hx)
  simpa using hne

/-- `strndup` over a stretch without `'\0'` copies the stretch. -/
theorem strndup_stretch (pre rest : List Char) (n : Nat) (hn : n = pre.length)
    (h : NUL ∉ pre) : strndup (pre ++ rest) n = pre := by
  subst hn
  unfold strndup
  rw [List.take_left, takeWhile_ne_NUL pre h]

theorem parse_transition_line (t : Transition) (rest : List Char)
    (h1 : ' ' ∉ t.state) (h2 : NUL ∉ t.state)
    (h3 : '\n' ∉ t.new_state) (h4 : NUL ∉ t.new_state) :
    parse_transition (transition_line t ++ rest) = .ok (t, rest) := by
  obtain ⟨state, new_state, value, new_value, direction⟩ := t
  simp only at h1 h2 h3 h4
  have e1 : ('<' : Char) ≠ NUL := by decide
  have e2 : ('-' : Char) ≠ NUL := by decide
  have e3 : ('<' : Char) ≠ '-' := by decide
  have e4 : ('-' : Char) ≠ '<' := by decide
  cases direction <;>
  · simp only [parse_transition, transition_line, direction_token, List.append_assoc,
      List.cons_append, List.nil_append, skip_until_append _ _ _ h1, List.drop_succ_cons,
      List.drop_zero, strncmp_eq]
    rw [skip_line_append new_state rest '\n' h3 h4 (Or.inl rfl)]
    rw [strndup_stretch state _ _ (by simp) h2]
    simp only [ne_eq, not_true_eq_false, not_false_eq_true, if_true, if_false, e1, e2, e3, e4,
      List.drop_succ_cons, List.drop_zero, ite_self]
    rw [strndup_stretch new_state _ _ (by simp) h4]

/-- A transition line whose state holds no `'\0'` does not start with `'\0'`. -/
theorem transition_line_head (t : Transition) (rest : List Char) (h : NUL ∉ t.state) :
    ∃ c tl, transition_line t ++ rest = c :: tl ∧ c ≠ NUL := by
  unfold transition_line
  cases hst : t.state with
  | nil => exact ⟨' ', _, rfl, by decide⟩
  | cons x xs =>
    refine ⟨x, _, rfl, ?_⟩
    intro e
    apply h
    rw [hst, e]
    exact List.mem_cons_self _ _

theorem length_transition_lines (lines : List Transition) :
    lines.length ≤ (transition_lines lines).length := by
  induction lines with
  | nil => simp
  | cons t ts ih =>
    simp only [transition_lines, transition_line, List.length_append, List.length_cons]
    omega

/-- The transition loop reads the lines in order, one per iteration, and
appends them to the table. -/
theorem parse_transitions_lines (lines : List Transition) (rest : List Char) (fuel : Nat)
    (m : Machine)
    (hl : ∀ t, t ∈ lines →
      ' ' ∉ t.state ∧ NUL ∉ t.state ∧ '\n' ∉ t.new_state ∧ NUL ∉ t.new_state) :
    parse_transitions (fuel + lines.length) (transition_lines lines ++ rest) m =
      parse_transitions fuel rest { m with transitions := m.transitions ++ lines } := by
  induction lines generalizing m with
  | nil => simp [transition_lines]
  | cons t ts ih =>
    obtain ⟨h1, h2, h3, h4⟩ := hl t (List.mem_cons_self _ _)
    obtain ⟨c, tl, hc, hne⟩ := transition_line_head t (transition_lines ts ++ rest) h2
    have hpt := parse_transition_line t (transition_lines ts ++ rest) h1 h2 h3 h4
    simp only [transition_lines, List.length_cons, List.append_assoc]
    rw [← Nat.add_assoc]
    rw [hc] at hpt ⊢
    simp only [parse_transitions, hne, if_false, hpt]
    rw [ih _ (fun u hu => hl u (List.mem_cons_of_mem _ hu))]
    simp

/-- The loop stops with the table read so far at a `'\0'`. -/
theorem parse_transitions_NUL (fuel : Nat) (rest : List Char) (m : Machine) :
    parse_transitions (fuel + 1) (NUL :: rest) m = some (.ok m) := by
  simp [parse_transitions]

/-- The text built from an initial state, a default value and transition
lines parses to exactly these, when the identifiers hold no `'\0'`, the
initial state and the new states no newline and the states no space. -/
theorem parse_machine_description_text (s : List Char) (c : Char) (lines : List Transition)
    (hs1 : '\n' ∉ s) (hs2 : NUL ∉ s)
    (hl : ∀ t, t ∈ lines →
      ' ' ∉ t.state ∧ NUL ∉ t.state ∧ '\n' ∉ t.new_state ∧ NUL ∉ t.new_state) :
    parse_machine (some (read_file (description_text s c lines))) = some (.ok ⟨s, c, lines⟩) := by
  simp only [parse_machine, read_file, description_text, List.append_assoc, List.cons_append,
    skip_until_append _ _ _ hs1, List.drop_succ_cons, List.drop_zero]
  rw [strndup_stretch s _ _ (by simp) hs2]
  have hlen := length_transition_lines lines
  obtain ⟨f, hf⟩ : ∃ f, (transition_lines lines ++ [NUL]).length + 1 = (f + 1) + lines.length :=
    ⟨(transition_lines lines).length - lines.length + 1, by
      simp only [List.length_append, List.length_cons, List.length_nil]; omega⟩
  rw [hf, parse_transitions_lines lines [NUL] (f + 1) _ hl, parse_transitions_NUL]
  simp

/-- A line whose direction token is neither `<-` nor `->` takes the loop body
to `free_machine`, which frees the unassigned `new_state` of the entry. -/
theorem parse_transition_bad_direction (state : List Char) (value new_value d1 d2 : Char)
    (rest : List Char) (h1 : ' ' ∉ state)
    (hd1 : ¬ (d1 = '<' ∧ d2 = '-')) (hd2 : ¬ (d1 = '-' ∧ d2 = '>')) :
    parse_transition (state ++ ' ' :: value :: ' ' :: new_value :: ' ' :: d1 :: d2 :: rest)
      = .invalid_free := by
  have e1 : ('<' : Char) ≠ NUL := by decide
  have e2 : ('-' : Char) ≠ NUL := by decide
  simp only [parse_transition, skip_until_append _ _ _ h1, List.drop_succ_cons,
    List.drop_zero, strncmp_eq]
  by_cases a1 : d1 = '<'
  · have a2 : d2 ≠ '-' := fun e => hd1 ⟨a1, e⟩
    have a3 : d1 ≠ '-' := by rw [a1]; decide
    simp [a1, a2, e1]
  · by_cases b1 : d1 = '-'
    · have b2 : d2 ≠ '>' := fun e => hd2 ⟨b1, e⟩
      simp [a1, b1, b2, e2]
    · simp [a1, b1]

theorem skip_until_length (c : Char) (s s1 : List Char) (h : skip_until c s = some s1) :
    s1.length ≤ s.length ∧ 0 < s1.length := by
  induction s with
  | nil => simp [skip_until] at h
  | cons x xs ih =>
    unfold skip_until at h
    split at h
    · simp only [Option.some.injEq] at h
      subst h
      simp
    · have := ih h
      simp only [List.length_cons]
      omega

theorem skip_line_length (s s1 : List Char) (h : skip_line s = some s1) :
    s1.length ≤ s.length := by
  induction s with
  | nil => simp [skip_line] at h
  | cons x xs ih =>
    unfold skip_line at h
    split at h
    · simp only [Option.some.injEq] at h
      subst h
      simp
    · have := ih h
      simp only [List.length_cons]
      omega

/-- Every iteration of the transition loop advances the pointer. -/
theorem parse_transition_length (s s1 : List Char) (t : Transition)
    (h : parse_transition s = .ok (t, s1)) : s1.length < s.length := by
  unfold parse_transition at h
  split at h
  · simp at h
  · rename_i a ha
    have hlen := skip_until_length _ _ _ ha
    simp only at h
    split at h
    · simp at h
    · rename_i v b hb
      have hb1 := congrArg List.length hb
      simp only [List.length_drop, List.length_cons] at hb1
      split at h
      · simp at h
      · rename_i nv d hd
        have hd1 := congrArg List.length hd
        simp only [List.length_drop, List.length_cons] at hd1
        split at h
        · simp at h
        · split at h
          · simp at h
          · rename_i e he
            have hl := skip_line_length _ _ he
            simp only [List.length_drop] at hl
            simp only [ParseOutcome.ok.injEq, Prod.mk.injEq] at h
            have h2 := congrArg List.length h.2
            simp only [List.length_drop] at h2
            omega
        · split at h
          · simp at h
          · split at h
            · simp at h
            · rename_i e he
              have hl := skip_line_length _ _ he
              simp only [List.length_drop] at hl
              simp only [ParseOutcome.ok.injEq, Prod.mk.injEq] at h
              have h2 := congrArg List.length h.2
              simp only [List.length_drop] at h2
              omega
          · simp at h

/-- The bound on the transition loop is never reached when it exceeds the
length of what is left of the buffer. -/
theorem parse_transitions_isSome (fuel : Nat) (source : List Char) (m : Machine)
    (h : source.length < fuel) : (parse_transitions fuel source m).isSome = true := by
  induction fuel generalizing source m with
  | zero => omega
  | succ fuel ih =>
    unfold parse_transitions
    split
    · rfl
    · split
      · rfl
      · split
        · rfl
        · rfl
        · rfl
        · rename_i t s1 hpt
          have := parse_transition_length _ _ _ hpt
          exact ih _ _ (by omega)

/-- The embedding of `parse_machine` always yields an outcome: the bound it
puts on the transition loop is never the reason the loop stops. -/
theorem parse_machine_isSome (source : Option (List Char)) :
    (parse_machine source).isSome = true := by
  unfold parse_machine
  split
  · rfl
  · simp only
    split
    · rfl
    · split
      · rfl
      · exact parse_transitions_isSome _ _ _ (Nat.lt_succ_self _)

/-- What a selected transition does when the head is on the last cell and the
move is to the right. -/
theorem apply_transition_right_grow (m : Machine) (t : Transition) (c : Config)
    (hdir : t.direction = Direction.RIGHT) (hend : c.head + 1 = c.tape.capacity) :
    apply_transition m t c =
      ⟨Status.running, t.new_state, c.head + 1,
        ⟨c.tape.values.set c.head t.new_value ++
          List.replicate (c.tape.capacity * 2 - (c.head + 1)) m.default_value⟩⟩ := by
  simp only [apply_transition, hdir, grow, Tape.capacity, List.length_set] at hend ⊢
  have h1 : c.head + 1 ≥ c.tape.values.length := by omega
  simp [h1, hend]

/-- What a selected transition does when the head is on cell 0 and the move
is to the left. -/
theorem apply_transition_left_zero (m : Machine) (t : Transition) (c : Config)
    (hdir : t.direction = Direction.LEFT) (hhead : c.head = 0) :
    apply_transition m t c =
      ⟨Status.out_of_bounds, t.new_state, 0, ⟨c.tape.values.set 0 t.new_value⟩⟩ := by
  simp [apply_transition, hdir, hhead]

/-- What a selected transition does when the move is to the left and the head
is inside the tape and not on cell 0. -/
theorem apply_transition_left_pos (m : Machine) (t : Transition) (c : Config)
    (hdir : t.direction = Direction.LEFT) (hpos : 0 < c.head)
    (hin : c.head < c.tape.capacity) :
    apply_transition m t c =
      ⟨Status.running, t.new_state, c.head - 1,
        ⟨c.tape.values.set c.head t.new_value⟩⟩ := by
  simp only [apply_transition, hdir, grow, Tape.capacity, List.length_set] at hin ⊢
  have h0 : c.head ≠ 0 := by omega
  have h1 : ¬ (c.head - 1 ≥ c.tape.values.length) := by omega
  simp [h0, h1]

/-- What a selected transition does when the move is to the right and the
head stays inside the tape. -/
theorem apply_transition_right_inside (m : Machine) (t : Transition) (c : Config)
    (hdir : t.direction = Direction.RIGHT) (hin : c.head + 1 < c.tape.capacity) :
    apply_transition m t c =
      ⟨Status.running, t.new_state, c.head + 1,
        ⟨c.tape.values.set c.head t.new_value⟩⟩ := by
  simp only [apply_transition, hdir, grow, Tape.capacity, List.length_set] at hin ⊢
  have h1 : ¬ (c.head + 1 ≥ c.tape.values.length) := by omega
  simp [h1]

/-- With the head inside the tape the lookup never reads outside it. -/
theorem find_transition_in_bounds (ts : List Transition) (state : List Char) (tape : Tape)
    (head : Nat) (h : head < tape.capacity) :
    find_transition ts state tape head ≠ .out_of_bounds := by
  obtain ⟨v, hv⟩ : ∃ v, tape.values[head]? = some v :=
    ⟨tape.values[head], List.getElem?_eq_getElem h⟩
  induction ts with
  | nil => simp [find_transition]
  | cons u us ih =>
    unfold find_transition
    by_cases hst : u.state = state
    · by_cases hval : u.value = v
      · simp [hst, hv, hval]
      · simp [hst, hv, hval, ih]
    · simp [hst, ih]

/-- The four ways a selected transition moves a head that is inside the
tape. -/
theorem apply_transition_cases (m : Machine) (t : Transition) (c : Config)
    (hin : c.head < c.tape.capacity) :
    (t.direction = Direction.LEFT ∧ c.head = 0 ∧ apply_transition m t c =
      ⟨Status.out_of_bounds, t.new_state, 0, ⟨c.tape.values.set 0 t.new_value⟩⟩) ∨
    (t.direction = Direction.LEFT ∧ 0 < c.head ∧ apply_transition m t c =
      ⟨Status.running, t.new_state, c.head - 1,
        ⟨c.tape.values.set c.head t.new_value⟩⟩) ∨
    (t.direction = Direction.RIGHT ∧ c.head + 1 < c.tape.capacity ∧
      apply_transition m t c =
        ⟨Status.running, t.new_state, c.head + 1,
          ⟨c.tape.values.set c.head t.new_value⟩⟩) ∨
    (t.direction = Direction.RIGHT ∧ c.head + 1 = c.tape.capacity ∧
      apply_transition m t c =
        ⟨Status.running, t.new_state, c.head + 1,
          ⟨c.tape.values.set c.head t.new_value ++
            List.replicate (c.tape.capacity * 2 - (c.head + 1)) m.default_value⟩⟩) := by
  cases hdir : t.direction with
  | LEFT =>
    by_cases h0 : c.head = 0
    · exact Or.inl ⟨rfl, h0, apply_transition_left_zero m t c hdir h0⟩
    · exact Or.inr (Or.inl ⟨rfl, by omega,
        apply_transition_left_pos m t c hdir (by omega) hin⟩)
  | RIGHT =>
    by_cases h1 : c.head + 1 < c.tape.capacity
    · exact Or.inr (Or.inr (Or.inl ⟨rfl, h1, apply_transition_right_inside m t c hdir h1⟩))
    · have h2 : c.head + 1 = c.tape.capacity := by omega
      exact Or.inr (Or.inr (Or.inr ⟨rfl, h2, apply_transition_right_grow m t c hdir h2⟩))

/-- One iteration, for a configuration whose head is inside the tape: the
configuration is kept with at most the status changed to a halt, or a
transition of the table that matches is applied. -/
theorem step_cases (m : Machine) (c : Config) (hin : c.head < c.tape.capacity) :
    (step m c = c) ∨ (step m c = { c with status := Status.no_transition }) ∨
    (∃ t, c.status = Status.running ∧
      find_transition m.transitions c.state c.tape c.head = .ok t ∧
      step m c = apply_transition m t c) := by
  by_cases hrun : c.status = Status.running
  · cases hfind : find_transition m.transitions c.state c.tape c.head with
    | out_of_bounds => exact absurd hfind (find_transition_in_bounds _ _ _ _ hin)
    | null => exact Or.inr (Or.inl (step_of_find_null m c hrun hfind))
    | ok t => exact Or.inr (Or.inr ⟨t, hrun, rfl, step_of_find_ok m c t hrun hfind⟩)
  · exact Or.inl (step_of_not_running m c hrun)

/-- An iteration keeps the head inside the tape and accesses no cell outside
it. -/
theorem step_head_in_bounds (m : Machine) (c : Config)
    (hin : c.head < c.tape.capacity) (hs : c.status ≠ Status.invalid_access) :
    (step m c).head < (step m c).tape.capacity ∧
      (step m c).status ≠ Status.invalid_access := by
  rcases step_cases m c hin with h | h | ⟨t, hrun, hfind, h⟩
  · rw [h]; exact ⟨hin, hs⟩
  · rw [h]; exact ⟨hin, by simp⟩
  · rw [h]
    rcases apply_transition_cases m t c hin with ⟨_, h0, e⟩ | ⟨_, h0, e⟩ | ⟨_, h0, e⟩ |
      ⟨_, h0, e⟩ <;> rw [e] <;>
      simp only [Tape.capacity, List.length_set, List.length_append,
        List.length_replicate] at hin h0 ⊢ <;>
      refine ⟨by omega, by simp⟩

theorem run_machine_head_in_bounds (m : Machine) (tape : Tape) (n : Nat)
    (h : 0 < tape.capacity) :
    (run_machine m tape n).head < (run_machine m tape n).tape.capacity ∧
      (run_machine m tape n).status ≠ Status.invalid_access := by
  induction n with
  | zero => exact ⟨h, by simp [run_machine, initial_config]⟩
  | succ n ih =>
    rw [run_machine_succ]
    exact step_head_in_bounds m _ ih.1 ih.2

/-- A selected transition always sets the state to its new state. -/
theorem apply_transition_state (m : Machine) (t : Transition) (c : Config) :
    (apply_transition m t c).state = t.new_state := by
  unfold apply_transition
  simp only
  split
  · split
    · rfl
    · split <;> rfl
  · split <;> rfl

/-- An iteration leaves the state as it is or sets it to the new state of a
transition of the table. -/
theorem step_state (m : Machine) (c : Config) :
    (step m c).state = c.state ∨ ∃ t, t ∈ m.transitions ∧ (step m c).state = t.new_state := by
  by_cases hrun : c.status = Status.running
  · cases hfind : find_transition m.transitions c.state c.tape c.head with
    | out_of_bounds =>
      left
      unfold step
      rw [hrun]
      simp only [hfind]
    | null =>
      left
      rw [step_of_find_null m c hrun hfind]
    | ok t =>
      right
      rw [step_of_find_ok m c t hrun hfind]
      exact ⟨t, (find_transition_ok hfind).1, apply_transition_state m t c⟩
  · left
    rw [step_of_not_running m c hrun]

theorem set_replicate_self (L n : Nat) (a : Char) :
    (List.replicate L a).set n a = List.replicate L a := by
  apply List.ext_getElem?
  intro i
  rw [List.getElem?_set]
  split
  · rename_i h
    subst h
    simp only [List.length_replicate, List.getElem?_replicate]
  · rfl

/-- An iteration either keeps the number of cells, with the head still below
it, or doubles it because the head has moved from the last cell to the old
number of cells. -/
theorem step_capacity (m : Machine) (c : Config) (hin : c.head < c.tape.capacity) :
    ((step m c).tape.capacity = c.tape.capacity ∧ (step m c).head < c.tape.capacity) ∨
    ((step m c).tape.capacity = 2 * c.tape.capacity ∧ (step m c).head = c.tape.capacity ∧
      c.head + 1 = c.tape.capacity) := by
  rcases step_cases m c hin with h | h | ⟨t, _, _, h⟩
  · rw [h]; exact Or.inl ⟨rfl, hin⟩
  · rw [h]; exact Or.inl ⟨rfl, hin⟩
  · rw [h]
    rcases apply_transition_cases m t c hin with ⟨_, h0, e⟩ | ⟨_, h0, e⟩ | ⟨_, h0, e⟩ |
      ⟨_, h0, e⟩ <;> rw [e] <;>
      simp only [Tape.capacity, List.length_set, List.length_append,
        List.length_replicate] at hin h0 ⊢
    · exact Or.inl ⟨trivial, by omega⟩
    · exact Or.inl ⟨trivial, by omega⟩
    · exact Or.inl ⟨trivial, h0⟩
    · exact Or.inr ⟨by omega, h0, h0⟩

theorem head_le_max_head (m : Machine) (tape : Tape) (j : Nat) :
    (run_machine m tape j).head ≤ max_head m tape j := by
  cases j with
  | zero => exact Nat.le_refl _
  | succ j => exact Nat.le_max_right _ _

/-- The number of cells is the initial number times a power of two, the least
one that exceeds the largest head index reached. -/
theorem capacity_power_of_two (m : Machine) (tape : Tape) (h : 0 < tape.capacity) (j : Nat) :
    ∃ k, (run_machine m tape j).tape.capacity = tape.capacity * 2 ^ k ∧
      max_head m tape j < tape.capacity * 2 ^ k ∧
      ∀ k', k' < k → tape.capacity * 2 ^ k' ≤ max_head m tape j := by
  induction j with
  | zero =>
    refine ⟨0, by simp [run_machine, initial_config], ?_, fun k' hk => by omega⟩
    simpa [max_head, run_machine, initial_config] using h
  | succ j ih =>
    obtain ⟨k, hcap, hmax, hleast⟩ := ih
    have hin := (run_machine_head_in_bounds m tape j h).1
    have hle := head_le_max_head m tape j
    rw [run_machine_succ]
    simp only [max_head]
    rw [run_machine_succ]
    rcases step_capacity m _ hin with ⟨e1, e2⟩ | ⟨e1, e2, e3⟩
    · refine ⟨k, by rw [e1, hcap], ?_, ?_⟩
      · rw [hcap] at e2
        exact max_lt hmax e2
      · intro k' hk
        exact Nat.le_trans (hleast k' hk) (Nat.le_max_left _ _)
    · refine ⟨k + 1, ?_, ?_, ?_⟩
      · rw [e1, hcap, Nat.pow_succ]
        ring
      · have hpos : 0 < tape.capacity * 2 ^ k := by rw [← hcap]; omega
        have e4 : tape.capacity * 2 ^ (k + 1) = tape.capacity * 2 ^ k * 2 := by
          rw [Nat.pow_succ, Nat.mul_assoc]
        rw [e2, hcap, e4]
        apply max_lt
        · omega
        · omega
      · intro k' hk
        rw [e2, hcap]
        have hpow : 2 ^ k' ≤ 2 ^ k := Nat.pow_le_pow_right (by omega) (by omega)
        exact Nat.le_trans (Nat.mul_le_mul_left _ hpow) (Nat.le_max_right _ _)

/-- Removing from the table an entry that the lookup would pass over leaves
the lookup as it is. -/
theorem find_transition_eraseIdx_of_no_match (ts : List Transition) (state : List Char)
    (tape : Tape) (head j : Nat) (u : Transition) (hj : ts[j]? = some u)
    (hno : u.state ≠ state ∨ ∃ v, tape.values[head]? = some v ∧ u.value ≠ v) :
    find_transition (ts.eraseIdx j) state tape head = find_transition ts state tape head := by
  induction ts generalizing j with
  | nil => simp at hj
  | cons w ws ih =>
    cases j with
    | zero =>
      simp only [List.getElem?_cons_zero, Option.some.injEq] at hj
      subst hj
      simp only [List.eraseIdx_cons_zero]
      conv_rhs => unfold find_transition
      rcases hno with h | ⟨v, hv, h⟩
      · simp [h]
      · by_cases hst : w.state = state
        · simp [hst, hv, h]
        · simp [hst]
    | succ j =>
      simp only [List.getElem?_cons_succ] at hj
      simp only [List.eraseIdx_cons_succ]
      unfold find_transition
      rw [ih j hj]

/-- Removing from the table an entry that has the state and the value of an
earlier entry leaves the lookup as it is. -/
theorem find_transition_eraseIdx_dead (ts : List Transition) (state : List Char)
    (tape : Tape) (head i j : Nat) (ti tj : Transition) (hij : i < j)
    (hi : ts[i]? = some ti) (hj : ts[j]? = some tj)
    (hst : ti.state = tj.state) (hval : ti.value = tj.value) :
    find_transition (ts.eraseIdx j) state tape head = find_transition ts state tape head := by
  induction ts generalizing i j with
  | nil => simp at hj
  | cons w ws ih =>
    cases j with
    | zero => omega
    | succ j =>
      simp only [List.getElem?_cons_succ] at hj
      simp only [List.eraseIdx_cons_succ]
      cases i with
      | zero =>
        simp only [List.getElem?_cons_zero, Option.some.injEq] at hi
        subst hi
        unfold find_transition
        by_cases hs : w.state = state
        · cases hv : tape.values[head]? with
          | none => simp [hs]
          | some v =>
            by_cases hw : w.value = v
            · simp [hs, hw]
            · have hno : tj.value ≠ v := by rw [← hval]; exact hw
              simp only [hs, if_true, hw, if_false]
              exact find_transition_eraseIdx_of_no_match ws state tape head j tj hj
                (Or.inr ⟨v, hv, hno⟩)
        · have hno : tj.state ≠ state := by rw [← hst]; exact hs
          simp only [hs, if_false]
          exact find_transition_eraseIdx_of_no_match ws state tape head j tj hj (Or.inl hno)
      | succ i =>
        simp only [List.getElem?_cons_succ] at hi
        unfold find_transition
        rw [ih i j (by omega) hi hj]

/-- An iteration depends on the machine only through its lookup and its
default value. -/
theorem step_congr (m1 m2 : Machine) (c : Config)
    (hd : m1.default_value = m2.default_value)
    (hf : find_transition m1.transitions c.state c.tape c.head =
      find_transition m2.transitions c.state c.tape c.head) :
    step m1 c = step m2 c := by
  unfold step
  rw [hf]
  simp only [apply_transition, hd]

theorem take_length_takeWhile (p : Char → Bool) (l : List Char) :
    l.take (l.takeWhile p).length = l.takeWhile p := by
  induction l with
  | nil => rfl
  | cons x xs ih =>
    by_cases hx : p x = true
    · simp [List.takeWhile, hx, ih]
    · simp [List.takeWhile, hx]

theorem takeWhile_append_NUL (content : List Char) :
    (content ++ [NUL]).takeWhile (fun c => c ≠ NUL) = content.takeWhile (fun c => c ≠ NUL) := by
  induction content with
  | nil => simp [List.takeWhile]
  | cons x xs ih =>
    by_cases hx : x = NUL
    · simp [List.takeWhile, hx]
    · rw [List.cons_append, List.takeWhile_cons_of_pos (by simpa using hx),
        List.takeWhile_cons_of_pos (by simpa using hx), ih]

/-- The tape seeded from a file holds the bytes of the file before its first
zero byte. -/
theorem seed_tape_read_file (content : List Char) :
    seed_tape (read_file content) = ⟨content.takeWhile (fun c => c ≠ NUL)⟩ := by
  unfold seed_tape strlen read_file
  rw [take_length_takeWhile, takeWhile_append_NUL]

/-! ## Separators that are stepped over -/

theorem strndup_append_left (pre rest : List Char) (n : Nat) (hn : n = pre.length) :
    strndup (pre ++ rest) n = pre.takeWhile (fun c => c ≠ NUL) := by
  subst hn
  unfold strndup
  rw [List.take_left]

theorem strndup_zero (l : List Char) : strndup l 0 = [] := by
  simp [strndup]

theorem strndup_cons (y : Char) (l : List Char) (n : Nat) (hy : y ≠ NUL) :
    strndup (y :: l) (n + 1) = y :: strndup l n := by
  unfold strndup
  rw [List.take_succ_cons, List.takeWhile_cons_of_pos (by simpa using hy)]

/-- One iteration of the transition loop on a line whose state `st` holds no
space: the fields are read at their positions, whatever the three
separators are. -/
theorem parse_transition_fields (st : List Char) (v s1 nv s2 s3 : Char) (dir : Direction)
    (rest S : List Char) (h : ' ' ∉ st) (hS : skip_line rest = some S) :
    parse_transition (st ++ ' ' :: v :: s1 :: nv :: s2 :: (direction_token dir ++ s3 :: rest)) =
      .ok (⟨st.takeWhile (fun c => c ≠ NUL), strndup rest (rest.length - S.length), v, nv, dir⟩,
        S.drop 1) := by
  have e1 : ('<' : Char) ≠ NUL := by decide
  have e2 : ('-' : Char) ≠ NUL := by decide
  have e3 : ('<' : Char) ≠ '-' := by decide
  have e4 : ('-' : Char) ≠ '<' := by decide
  cases dir <;>
  · simp only [parse_transition, direction_token, List.cons_append, List.nil_append,
      skip_until_append _ _ _ h, List.drop_succ_cons, List.drop_zero, strncmp_eq]
    rw [strndup_append_left st _ _ (by simp)]
    simp only [ne_eq, not_true_eq_false, not_false_eq_true, if_true, if_false, e1, e2, e3, e4,
      ite_self, hS]

/-- Where the loop over a new state stops, and what is copied, does not
depend on what follows the line. -/
theorem skip_line_new_state (ns : List Char)
    (h : ' ' ∉ ns ∨ ('\n' ∉ ns ∧ NUL ∉ ns)) :
    ∃ A D, ' ' ∉ D ∧ ∀ R, ∃ S, skip_line (ns ++ '\n' :: R) = some S ∧ S.drop 1 = D ++ R ∧
      strndup (ns ++ '\n' :: R) ((ns ++ '\n' :: R).length - S.length) = A := by
  by_cases hnl : '\n' ∉ ns ∧ NUL ∉ ns
  · refine ⟨ns, [], by simp, fun R => ⟨'\n' :: R, ?_, rfl, ?_⟩⟩
    · exact skip_line_append ns R '\n' hnl.1 hnl.2 (Or.inl rfl)
    · exact strndup_stretch ns _ _ (by simp) hnl.2
  · have hsp : ' ' ∉ ns := by
      rcases h with h | h
      · exact h
      · exact absurd h hnl
    clear h hnl
    induction ns with
    | nil =>
      refine ⟨[], [], by simp, fun R => ⟨'\n' :: R, by simp [skip_line], rfl, ?_⟩⟩
      simp [strndup_zero]
    | cons y ys ih =>
      have hys : ' ' ∉ ys := fun e => hsp (List.mem_cons_of_mem _ e)
      by_cases hy : y = '\n' ∨ y = NUL
      · refine ⟨[], ys ++ ['\n'], ?_, fun R => ⟨y :: (ys ++ '\n' :: R), ?_, ?_, ?_⟩⟩
        · intro e
          rcases List.mem_append.1 e with e | e
          · exact hys e
          · simp at e
        · simp [skip_line, hy]
        · simp
        · simp [strndup_zero]
      · obtain ⟨A, D, hD, hR⟩ := ih hys
        have hy2 : y ≠ NUL := fun e => hy (Or.inr e)
        refine ⟨y :: A, D, hD, fun R => ?_⟩
        obtain ⟨S, h1, h2, h3⟩ := hR R
        refine ⟨S, ?_, h2, ?_⟩
        · simp only [List.cons_append, skip_line, hy, if_false]
          exact h1
        · have hlen := skip_line_length _ _ h1
          have e : ((y :: ys) ++ '\n' :: R).length - S.length =
              ((ys ++ '\n' :: R).length - S.length) + 1 := by
            simp only [List.cons_append, List.length_cons] at hlen ⊢
            omega
          rw [e, List.cons_append, strndup_cons _ _ _ hy2, h3]

/-- One iteration of the transition loop on a line that follows a stretch
`pre` without space: the transition read and the pointer reached are the
same whatever the three unread separators and the rest of the buffer are. -/
theorem parse_transition_with (pre : List Char) (t : Transition) (h1 : ' ' ∉ pre)
    (h2 : ' ' ∉ t.state)
    (h3 : ' ' ∉ t.new_state ∨ ('\n' ∉ t.new_state ∧ NUL ∉ t.new_state)) :
    ∃ T D, ' ' ∉ D ∧ ∀ s1 s2 s3 R,
      parse_transition (pre ++ (transition_line_with t s1 s2 s3 ++ R)) = .ok (T, D ++ R) := by
  obtain ⟨A, D, hD, hR⟩ := skip_line_new_state t.new_state h3
  refine ⟨⟨(pre ++ t.state).takeWhile (fun c => c ≠ NUL), A, t.value, t.new_value,
    t.direction⟩, D, hD, fun s1 s2 s3 R => ?_⟩
  obtain ⟨S, e1, e2, e3⟩ := hR R
  have hst : ' ' ∉ pre ++ t.state := by
    intro e
    rcases List.mem_append.1 e with e | e
    · exact h1 e
    · exact h2 e
  have key := parse_transition_fields (pre ++ t.state) t.value s1 t.new_value s2 s3 t.direction
    (t.new_state ++ '\n' :: R) S hst e1
  rw [e2, e3] at key
  rw [← key]
  simp [transition_line_with]

/-- Two iterations of the transition loop that start on the same character,
read the same transition and continue alike give the same result. -/
theorem parse_transitions_congr (fuel : Nat) (src1 src2 r1 r2 : List Char) (m : Machine)
    (T : Transition) (hh : src1.head? = src2.head?)
    (h1 : parse_transition src1 = .ok (T, r1)) (h2 : parse_transition src2 = .ok (T, r2))
    (hr : ∀ m', parse_transitions fuel r1 m' = parse_transitions fuel r2 m') :
    parse_transitions (fuel + 1) src1 m = parse_transitions (fuel + 1) src2 m := by
  cases src1 with
  | nil => simp [parse_transition, skip_until] at h1
  | cons a as =>
    cases src2 with
    | nil => simp [parse_transition, skip_until] at h2
    | cons b bs =>
      simp only [List.head?_cons, Option.some.injEq] at hh
      subst hh
      simp only [parse_transitions, h1, h2]
      split
      · rfl
      · exact hr _

theorem length_transition_lines_with (lines : List (Transition × Char × Char × Char)) :
    (transition_lines_with lines).length =
      (transition_lines (lines.map Prod.fst)).length := by
  induction lines with
  | nil => rfl
  | cons l ls ih =>
    obtain ⟨t, s1, s2, s3⟩ := l
    simp only [transition_lines_with, transition_lines, List.map_cons, List.length_append, ih,
      transition_line_with, transition_line, List.length_cons]

/-- The transition loop gives the same result on the lines with any unread
separators as on the lines with spaces. -/
theorem parse_transitions_with (lines : List (Transition × Char × Char × Char))
    (pre : List Char) (fuel : Nat) (m : Machine) (hpre : ' ' ∉ pre)
    (hl : ∀ l, l ∈ lines → ' ' ∉ l.1.state ∧
      (' ' ∉ l.1.new_state ∨ ('\n' ∉ l.1.new_state ∧ NUL ∉ l.1.new_state))) :
    parse_transitions fuel (pre ++ (transition_lines_with lines ++ [NUL])) m =
      parse_transitions fuel (pre ++ (transition_lines (lines.map Prod.fst) ++ [NUL])) m := by
  induction lines generalizing pre fuel m with
  | nil => rfl
  | cons l ls ih =>
    obtain ⟨t, s1, s2, s3⟩ := l
    cases fuel with
    | zero => rfl
    | succ fuel =>
      obtain ⟨h2, h3⟩ := hl (t, s1, s2, s3) (List.mem_cons_self _ _)
      obtain ⟨T, D, hD, hT⟩ := parse_transition_with pre t hpre h2 h3
      have e1 := hT s1 s2 s3 (transition_lines_with ls ++ [NUL])
      have e2 := hT ' ' ' ' ' ' (transition_lines (ls.map Prod.fst) ++ [NUL])
      simp only [transition_lines_with, transition_lines, List.map_cons, List.append_assoc]
      refine parse_transitions_congr fuel _ _ _ _ m T ?_ e1 e2
        (fun m' => ih D fuel m' hD (fun l hl' => hl l (List.mem_cons_of_mem _ hl')))
      cases pre with
      | nil =>
        cases hst : t.state with
        | nil => simp [transition_line_with, transition_line, hst]
        | cons x xs => simp [transition_line_with, transition_line, hst]
      | cons p ps => simp

/-- Every description whose first line holds no newline and in which, after
transition lines with states without space, new states without newline and
no `'\0'` in either, a line `state value new_value d1d2...` has a direction
token that is neither `<-` nor `->` takes `parse_machine` to the call of
`free_machine` that frees an unassigned pointer. -/
theorem parse_machine_bad_direction (s : List Char) (c : Char) (lines : List Transition)
    (state : List Char) (value new_value d1 d2 : Char) (rest : List Char)
    (hs : '\n' ∉ s)
    (hl : ∀ t, t ∈ lines →
      ' ' ∉ t.state ∧ NUL ∉ t.state ∧ '\n' ∉ t.new_state ∧ NUL ∉ t.new_state)
    (h1 : ' ' ∉ state) (h2 : NUL ∉ state)
    (hd1 : ¬ (d1 = '<' ∧ d2 = '-')) (hd2 : ¬ (d1 = '-' ∧ d2 = '>')) :
    parse_machine (some (read_file (description_text s c lines ++
      (state ++ ' ' :: value :: ' ' :: new_value :: ' ' :: d1 :: d2 :: rest)))) =
      some .invalid_free := by
  simp only [parse_machine, read_file, description_text, List.append_assoc, List.cons_append,
    skip_until_append _ _ _ hs, List.drop_succ_cons, List.drop_zero]
  have hlen := length_transition_lines lines
  obtain ⟨f, hf⟩ : ∃ f, (transition_lines lines ++ (state ++ ' ' :: value :: ' ' ::
      new_value :: ' ' :: d1 :: d2 :: (rest ++ [NUL]))).length + 1 = (f + 1) + lines.length :=
    ⟨(transition_lines lines).length - lines.length + (state ++ ' ' :: value :: ' ' ::
      new_value :: ' ' :: d1 :: d2 :: (rest ++ [NUL])).length, by
      simp only [List.length_append, List.length_cons, List.length_nil]; omega⟩
  rw [hf, parse_transitions_lines lines _ (f + 1) _ hl]
  have hbad := parse_transition_bad_direction state value new_value d1 d2 (rest ++ [NUL])
    h1 hd1 hd2
  cases hst : state with
  | nil =>
    rw [hst] at hbad
    have e : (' ' : Char) ≠ NUL := by decide
    simp only [List.nil_append] at hbad ⊢
    simp only [parse_transitions, e, if_false, hbad]
  | cons x xs =>
    rw [hst] at hbad
    have e : x ≠ NUL := fun e => h2 (by rw [hst, e]; exact List.mem_cons_self _ _)
    simp only [List.cons_append] at hbad ⊢
    simp only [parse_transitions, e, if_false, hbad]

/-! ## The limits of the machine -/

/-- Below `2 ^ 63` cells and with a `realloc` that succeeds, the growth branch
in `size_t` is the growth branch in `Nat`. -/
theorem grow_size_t_eq_grow (alloc : Nat → Bool) (d : Char) (tape : Tape) (head : Nat)
    (hcap : tape.capacity < 2 ^ 63) (halloc : alloc (tape.capacity * 2) = true) :
    grow_size_t alloc d tape head = grow d tape head := by
  have hmod : tape.capacity * 2 % size_t_range = tape.capacity * 2 := by
    apply Nat.mod_eq_of_lt
    unfold size_t_range
    omega
  unfold grow_size_t grow
  simp only [hmod, halloc, true_and]
  by_cases h1 : head ≥ tape.capacity
  · by_cases h2 : head = tape.capacity
    · have h3 : tape.capacity ≤ tape.capacity * 2 := by omega
      simp [h2, h3]
    · simp [h1, h2]
  · simp [h1]

/-- Below `2 ^ 63` cells, with the head inside the tape and a `realloc` that
succeeds, an iteration with the limits of the machine is an iteration of
`step`. -/
theorem step_size_t_eq_step (alloc : Nat → Bool) (m : Machine) (c : Config)
    (hcap : c.tape.capacity < 2 ^ 63) (hhead : c.head < c.tape.capacity)
    (halloc : alloc (c.tape.capacity * 2) = true) :
    step_size_t alloc m c = step m c := by
  have hmod : (c.head + 1) % size_t_range = c.head + 1 := by
    apply Nat.mod_eq_of_lt
    unfold size_t_range
    omega
  have hg : ∀ t : Transition, ∀ head,
      grow_size_t alloc m.default_value ⟨c.tape.values.set c.head t.new_value⟩ head =
        grow m.default_value ⟨c.tape.values.set c.head t.new_value⟩ head := by
    intro t head
    apply grow_size_t_eq_grow
    · simpa [Tape.capacity] using hcap
    · simpa [Tape.capacity] using halloc
  unfold step_size_t step
  cases c.status <;> try rfl
  cases find_transition m.transitions c.state c.tape c.head <;> try rfl
  simp only [apply_transition_size_t, apply_transition, hmod, hg]

theorem run_machine_size_t_succ (alloc : Nat → Bool) (m : Machine) (tape : Tape) (n : Nat) :
    run_machine_size_t alloc m tape (n + 1) =
      step_size_t alloc m (run_machine_size_t alloc m tape n) := by
  unfold run_machine_size_t
  exact Function.iterate_succ_apply' (step_size_t alloc m) n _

/-- An iteration of `blank_loop` on a tape of blanks with the head inside it. -/
theorem step_size_t_blank_loop (alloc : Nat → Bool) (L n : Nat) (hn : n < L)
    (hL : n + 1 < 2 ^ 64) :
    step_size_t alloc blank_loop ⟨Status.running, "q0".toList, n, ⟨List.replicate L '_'⟩⟩ =
      match grow_size_t alloc '_' ⟨List.replicate L '_'⟩ (n + 1) with
      | none => ⟨Status.invalid_access, "q0".toList, n + 1, ⟨List.replicate L '_'⟩⟩
      | some tape => ⟨Status.running, "q0".toList, n + 1, tape⟩ := by
  have hmod : (n + 1) % size_t_range = n + 1 := Nat.mod_eq_of_lt hL
  simp [step_size_t, blank_loop, find_transition, apply_transition_size_t,
    List.getElem?_replicate, hn, set_replicate_self, hmod]

/-- The run of `blank_loop` on the one-cell tape `_` below `2 ^ 63`
iterations, while every `realloc` requested so far succeeds: the tape is a
power of two of blanks, at most twice the head. -/
theorem run_machine_size_t_blank_loop (alloc : Nat → Bool) (n : Nat) (hn : n < 2 ^ 63)
    (halloc : ∀ s, s ≤ 2 * n → alloc s = true) :
    ∃ k, n < 2 ^ k ∧ 2 ^ k ≤ max 1 (2 * n) ∧
      run_machine_size_t alloc blank_loop ⟨['_']⟩ n =
        ⟨Status.running, "q0".toList, n, ⟨List.replicate (2 ^ k) '_'⟩⟩ := by
  induction n with
  | zero => exact ⟨0, by simp, by simp, rfl⟩
  | succ n ih =>
    obtain ⟨k, h1, h2, e⟩ := ih (by omega) (fun s hs => halloc s (by omega))
    rw [run_machine_size_t_succ, e, step_size_t_blank_loop alloc _ _ h1 (by omega)]
    by_cases hin : n + 1 < 2 ^ k
    · refine ⟨k, hin, ?_, ?_⟩
      · rcases Nat.le_total 1 (2 * n) with h | h
        · rw [max_eq_right h] at h2
          rw [max_eq_right (by omega)]
          omega
        · rw [max_eq_left h] at h2
          omega
      · have hg : ¬ (n + 1 ≥ (⟨List.replicate (2 ^ k) '_'⟩ : Tape).capacity) := by
          simp [Tape.capacity]
          omega
        simp only [grow_size_t, hg, if_false]
    · have hend : n + 1 = 2 ^ k := by omega
      have hpow : 2 ^ (k + 1) = 2 ^ k * 2 := by rw [Nat.pow_succ]
      have hmod : 2 ^ k * 2 % size_t_range = 2 ^ k * 2 := by
        apply Nat.mod_eq_of_lt
        unfold size_t_range
        omega
      have ha : alloc (2 ^ k * 2) = true := halloc _ (by omega)
      refine ⟨k + 1, by omega, ?_, ?_⟩
      · rw [max_eq_right (by omega)]
        omega
      · have hrep : List.replicate (2 ^ k) '_' ++ List.replicate (2 ^ k * 2 - 2 ^ k) '_' =
            List.replicate (2 ^ (k + 1)) '_' := by
          rw [← List.replicate_add]
          congr 1
          omega
        simp only [grow_size_t, Tape.capacity, List.length_replicate, hmod, ha, hend]
        simp [hrep]

/-- At iteration `2 ^ 63` the doubling of the capacity wraps around. -/
theorem run_machine_size_t_blank_loop_wrap (alloc : Nat → Bool) (n : Nat)
    (hn : n + 1 = 2 ^ 63) (halloc : ∀ s, s ≤ 2 * n → alloc s = true) :
    (run_machine_size_t alloc blank_loop ⟨['_']⟩ (n + 1)).status = Status.invalid_access := by
  obtain ⟨k, h1, h2, e⟩ := run_machine_size_t_blank_loop alloc n (by omega) halloc
  have hk : k = 63 := by
    rcases Nat.lt_trichotomy k 63 with h | h | h
    · have := Nat.pow_le_pow_right (show 0 < 2 by omega) (show k ≤ 62 by omega)
      omega
    · exact h
    · have := Nat.pow_le_pow_right (show 0 < 2 by omega) (show 64 ≤ k by omega)
      rw [max_eq_right (by omega)] at h2
      omega
  have hpk : 2 ^ k = 2 ^ 63 := by rw [hk]
  rw [run_machine_size_t_succ, e, step_size_t_blank_loop alloc _ _ h1 (by omega)]
  have hmod : 2 ^ k * 2 % size_t_range = 0 := by
    rw [hpk]
    unfold size_t_range
    norm_num
  have hle : 2 ^ k ≤ n + 1 := by omega
  simp only [grow_size_t, Tape.capacity, List.length_replicate, hmod]
  simp [hle]

/-! ## The claims -/

/-- C1. The description with lines `q0`, `_`, `q0 0 1 -> q0`, `q0 1 0 -> q0`
parses to a machine; the tape seeded from the input bytes `01` has two cells;
the run is still going after two iterations and from the third iteration on
it has halted for lack of a transition in state `q0`, with head 2 and the
tape exactly the four cells `1`, `0`, `_`, `_`. -/
theorem end_to_end_scenario :
    ∃ m : Machine,
      parse_machine (some (read_file "q0\n_\nq0 0 1 -> q0\nq0 1 0 -> q0\n".toList))
        = some (.ok m) ∧
      seed_tape (read_file "01".toList) = ⟨['0', '1']⟩ ∧
      (run_machine m (seed_tape (read_file "01".toList)) 2).status = Status.running ∧
      ∀ k, run_machine m (seed_tape (read_file "01".toList)) (3 + k) =
        ⟨Status.no_transition, "q0".toList, 2, ⟨['1', '0', '_', '_']⟩⟩ := by
  refine ⟨⟨"q0".toList, '_', [⟨"q0".toList, "q0".toList, '0', '1', .RIGHT⟩,
    ⟨"q0".toList, "q0".toList, '1', '0', .RIGHT⟩]⟩, by decide, by decide, by decide, ?_⟩
  intro k
  rw [run_machine_halted _ _ 3 k (by decide)]
  decide

/-- C2. First-match priority: when the cell under the head holds `v` and `i`
is the least index of the transition table whose entry has the current state
and the value `v`, the lookup of `run_machine` selects entry `i` and the
iteration applies it. -/
theorem first_match_priority (m : Machine) (c : Config) (v : Char) (i : Nat)
    (t : Transition)
    (hrun : c.status = Status.running)
    (hv : c.tape.values[c.head]? = some v)
    (hi : m.transitions[i]? = some t)
    (hmatch : t.state = c.state ∧ t.value = v)
    (hmin : ∀ j u, j < i → m.transitions[j]? = some u → ¬ (u.state = c.state ∧ u.value = v)) :
    find_transition m.transitions c.state c.tape c.head = .ok t ∧
      step m c = apply_transition m t c := by
  have hfind := find_transition_least m.transitions c.state c.tape c.head v hv i t hi hmatch hmin
  exact ⟨hfind, step_of_find_ok m c t hrun hfind⟩

/-- C2 at a table whose entries 1 and 2 share `(q0, 0)` with different
outcomes: entry 1 is selected and the run writes `1` and moves right. -/
theorem first_match_priority_witness :
    step ⟨"q0".toList, '_',
        [⟨"q1".toList, "q1".toList, '0', '3', .RIGHT⟩,
         ⟨"q0".toList, "a".toList, '0', '1', .RIGHT⟩,
         ⟨"q0".toList, "b".toList, '0', '2', .LEFT⟩]⟩
      ⟨Status.running, "q0".toList, 0, ⟨['0', '0']⟩⟩ =
    ⟨Status.running, "a".toList, 1, ⟨['1', '0']⟩⟩ := by
  have h := (first_match_priority
    ⟨"q0".toList, '_',
        [⟨"q1".toList, "q1".toList, '0', '3', .RIGHT⟩,
         ⟨"q0".toList, "a".toList, '0', '1', .RIGHT⟩,
         ⟨"q0".toList, "b".toList, '0', '2', .LEFT⟩]⟩
    ⟨Status.running, "q0".toList, 0, ⟨['0', '0']⟩⟩ '0' 1
    ⟨"q0".toList, "a".toList, '0', '1', .RIGHT⟩ rfl (by decide) (by decide) (by decide)
    (by
      intro j u hj hu
      have hj0 : j = 0 := by omega
      subst hj0
      simp only [List.getElem?_cons_zero, Option.some.injEq] at hu
      subst hu
      decide)).2
  rw [h]
  decide

/-- C3, as amended. Parse order and field preservation: for the description
with first line `s`, second line `c` and the transition lines `lines`, where
`s` and the new states hold no newline, the states hold no space and no
identifier holds a `'\0'`, `parse_machine` succeeds with initial state `s`,
default value `c` and a table of exactly as many entries as there are lines,
entry `i` being line `i` field by field. -/
theorem parse_order_and_fields (s : List Char) (c : Char) (lines : List Transition)
    (hs1 : '\n' ∉ s) (hs2 : NUL ∉ s)
    (hl : ∀ t, t ∈ lines →
      ' ' ∉ t.state ∧ NUL ∉ t.state ∧ '\n' ∉ t.new_state ∧ NUL ∉ t.new_state) :
    ∃ m : Machine,
      parse_machine (some (read_file (description_text s c lines))) = some (.ok m) ∧
      m.initial_state = s ∧ m.default_value = c ∧
      m.transition_count = lines.length ∧
      ∀ i, i < lines.length → ∃ t u, m.transitions[i]? = some t ∧ lines[i]? = some u ∧
        t.state = u.state ∧ t.value = u.value ∧ t.new_value = u.new_value ∧
        t.direction = u.direction ∧ t.new_state = u.new_state := by
  refine ⟨⟨s, c, lines⟩, parse_machine_description_text s c lines hs1 hs2 hl, rfl, rfl, rfl, ?_⟩
  intro i hi
  exact ⟨lines[i], lines[i], List.getElem?_eq_getElem hi, List.getElem?_eq_getElem hi,
    rfl, rfl, rfl, rfl, rfl⟩

/-- C3 on the description `q0`, `_`, `q0 0 1 -> q1`, `q1 1 0 <- q0`. -/
theorem parse_order_and_fields_witness :
    ∃ m : Machine,
      parse_machine (some (read_file (description_text "q0".toList '_'
        [⟨"q0".toList, "q1".toList, '0', '1', .RIGHT⟩,
         ⟨"q1".toList, "q0".toList, '1', '0', .LEFT⟩]))) = some (.ok m) ∧
      m.initial_state = "q0".toList ∧ m.default_value = '_' ∧
      m.transition_count = 2 ∧
      ∀ i, i < 2 → ∃ t u, m.transitions[i]? = some t ∧
        ([⟨"q0".toList, "q1".toList, '0', '1', .RIGHT⟩,
          ⟨"q1".toList, "q0".toList, '1', '0', .LEFT⟩] : List Transition)[i]? = some u ∧
        t.state = u.state ∧ t.value = u.value ∧ t.new_value = u.new_value ∧
        t.direction = u.direction ∧ t.new_state = u.new_state :=
  parse_order_and_fields "q0".toList '_'
    [⟨"q0".toList, "q1".toList, '0', '1', .RIGHT⟩,
     ⟨"q1".toList, "q0".toList, '1', '0', .LEFT⟩] (by decide) (by decide) (by decide)

/-- C3 fails as stated: in the description `q0`, `_`, `a\0b 0 1 -> q0` the
state `a\0b` of the transition line holds neither a space nor a newline, and
`parse_machine` succeeds with a table whose entry 0 has the state `a`, not
the state of the line. -/
theorem parse_order_and_fields_counterexample :
    ' ' ∉ ['a', NUL, 'b'] ∧ '\n' ∉ ['a', NUL, 'b'] ∧
    parse_machine (some (read_file (description_text "q0".toList '_'
      [⟨['a', NUL, 'b'], "q0".toList, '0', '1', .RIGHT⟩]))) =
      some (.ok ⟨"q0".toList, '_', [⟨['a'], "q0".toList, '0', '1', .RIGHT⟩]⟩) ∧
    (['a'] : List Char) ≠ ['a', NUL, 'b'] := by
  decide

/-- C4: the code at a description with an invalid direction.  On `q0`, `_`,
`q0 0 1 >> q0` (and likewise when the well-formed line `q0 0 1 -> q1`
precedes a line `q1 1 0 >> q0`) `parse_machine` does not come to its
`return NULL`: `free_machine`, called first, frees the `new_state` of the
entry under construction, which was never assigned. -/
theorem invalid_direction_invalid_free :
    parse_machine (some (read_file "q0\n_\nq0 0 1 >> q0\n".toList)) = some .invalid_free ∧
    parse_machine (some (read_file "q0\n_\nq0 0 1 -> q1\nq1 1 0 >> q0\n".toList)) =
      some .invalid_free := by
  decide

/-- C5: the code at three malformed descriptions.  On `q0` (no newline after
the initial state), on `q0` followed by a newline and nothing else, and on
`q0`, `_`, `q0` (a state with no space before the end of input),
`parse_machine` does not return `NULL`: it reads beyond the end of the
buffer. -/
theorem malformed_structure_out_of_bounds :
    parse_machine (some (read_file "q0".toList)) = some .out_of_bounds ∧
    parse_machine (some (read_file "q0\n".toList)) = some .out_of_bounds ∧
    parse_machine (some (read_file "q0\n_\nq0".toList)) = some .out_of_bounds := by
  decide

/-- C6: the code at a description whose last line is ended by the end of
input.  With the final newline `q0`, `_`, `q0 0 1 -> q0` parses to a machine;
without it `parse_machine` steps over the terminator after the last new
state and reads beyond the end of the buffer. -/
theorem end_of_input_out_of_bounds :
    parse_machine (some (read_file "q0\n_\nq0 0 1 -> q0\n".toList)) =
      some (.ok ⟨"q0".toList, '_', [⟨"q0".toList, "q0".toList, '0', '1', .RIGHT⟩]⟩) ∧
    parse_machine (some (read_file "q0\n_\nq0 0 1 -> q0".toList)) = some .out_of_bounds := by
  decide

/-- C7, as amended. Zero transitions is valid: for every `s` without newline
and without `'\0'` and every `c`, the description with first line `s`,
second line `c` and no transition line parses to the machine with initial
state `s`, default value `c` and an empty table. -/
theorem zero_transitions_valid (s : List Char) (c : Char)
    (hs1 : '\n' ∉ s) (hs2 : NUL ∉ s) :
    ∃ m : Machine,
      parse_machine (some (read_file (s ++ ['\n', c, '\n']))) = some (.ok m) ∧
      m.initial_state = s ∧ m.default_value = c ∧ m.transitions = [] ∧
      m.transition_count = 0 :=
  ⟨⟨s, c, []⟩, parse_machine_description_text s c [] hs1 hs2 (by simp), rfl, rfl, rfl, rfl⟩

/-- C7 on the description `q0`, `_`. -/
theorem zero_transitions_valid_witness :
    ∃ m : Machine,
      parse_machine (some (read_file ("q0".toList ++ ['\n', '_', '\n']))) = some (.ok m) ∧
      m.initial_state = "q0".toList ∧ m.default_value = '_' ∧ m.transitions = [] ∧
      m.transition_count = 0 :=
  zero_transitions_valid "q0".toList '_' (by decide) (by decide)

/-- C7 fails as stated: `q\0x` holds no newline, and the description with
first line `q\0x`, second line `_` and no transition line parses to a
machine whose initial state is `q`, not `q\0x`. -/
theorem zero_transitions_valid_counterexample :
    '\n' ∉ ['q', NUL, 'x'] ∧
    parse_machine (some (read_file (['q', NUL, 'x'] ++ ['\n', '_', '\n']))) =
      some (.ok ⟨['q'], '_', []⟩) ∧
    (['q'] : List Char) ≠ ['q', NUL, 'x'] := by
  decide

/-- C8. Growth correctness: when, after `k` iterations, the run applies a
transition `t` that moves right from the last cell (so the head reaches
`n`, the number of cells), the next configuration is running with head `n`,
the tape has exactly `2 * n` cells, every cell at an index in `[n, 2 * n)`
is the default value, the cell written by the transition holds its new
value and every other cell below `n` keeps its value. -/
theorem growth_correctness (m : Machine) (tape : Tape) (k : Nat) (t : Transition)
    (hrun : (run_machine m tape k).status = Status.running)
    (hfind : find_transition m.transitions (run_machine m tape k).state
      (run_machine m tape k).tape (run_machine m tape k).head = .ok t)
    (hdir : t.direction = Direction.RIGHT)
    (hend : (run_machine m tape k).head + 1 = (run_machine m tape k).tape.capacity) :
    (run_machine m tape (k + 1)).status = Status.running ∧
    (run_machine m tape (k + 1)).head = (run_machine m tape k).tape.capacity ∧
    (run_machine m tape (k + 1)).tape.capacity = 2 * (run_machine m tape k).tape.capacity ∧
    (∀ i, (run_machine m tape k).tape.capacity ≤ i →
      i < 2 * (run_machine m tape k).tape.capacity →
      (run_machine m tape (k + 1)).tape.values[i]? = some m.default_value) ∧
    (run_machine m tape (k + 1)).tape.values[(run_machine m tape k).head]? =
      some t.new_value ∧
    (∀ i, i < (run_machine m tape k).tape.capacity → i ≠ (run_machine m tape k).head →
      (run_machine m tape (k + 1)).tape.values[i]? =
        (run_machine m tape k).tape.values[i]?) := by
  rw [run_machine_succ, step_of_find_ok m _ t hrun hfind,
    apply_transition_right_grow m t _ hdir hend]
  generalize run_machine m tape k = c at hend ⊢
  simp only [Tape.capacity] at hend ⊢
  refine ⟨?_, ?_, ?_, ?_, ?_, ?_⟩
  · trivial
  · exact hend
  · simp only [List.length_append, List.length_set, List.length_replicate]
    omega
  · intro i h1 h2
    rw [List.getElem?_append_right (by simp only [List.length_set]; exact h1)]
    rw [List.getElem?_replicate]
    simp only [List.length_set]
    rw [if_pos (by omega)]
  · rw [List.getElem?_append_left (by simp only [List.length_set]; omega)]
    rw [List.getElem?_set_self (by omega)]
  · intro i h1 h2
    rw [List.getElem?_append_left (by simp only [List.length_set]; exact h1)]
    rw [List.getElem?_set_ne (fun h => h2 h.symm)]

/-- C8 on the one-cell tape `0` with the transition `q0 0 1 -> q0`: the
tape becomes `1`, `_`. -/
theorem growth_correctness_witness :
    (run_machine ⟨"q0".toList, '_', [⟨"q0".toList, "q0".toList, '0', '1', .RIGHT⟩]⟩
      ⟨['0']⟩ (0 + 1)).tape.capacity =
    2 * (run_machine ⟨"q0".toList, '_', [⟨"q0".toList, "q0".toList, '0', '1', .RIGHT⟩]⟩
      ⟨['0']⟩ 0).tape.capacity :=
  (growth_correctness ⟨"q0".toList, '_', [⟨"q0".toList, "q0".toList, '0', '1', .RIGHT⟩]⟩
    ⟨['0']⟩ 0 ⟨"q0".toList, "q0".toList, '0', '1', .RIGHT⟩
    (by decide) (by decide) (by decide) (by decide)).2.2.1

/-- C9. Left-boundary recoverability: when, after `k` iterations, the run is
at head 0 and the transition it selects moves left, the loop is left in that
iteration with the out-of-bounds halt and stays so; the head is still 0, the
number of cells is unchanged, every cell other than cell 0 keeps its value
and cell 0 holds the new value of the transition. -/
theorem left_boundary_recoverability (m : Machine) (tape : Tape) (k : Nat) (t : Transition)
    (hrun : (run_machine m tape k).status = Status.running)
    (hhead : (run_machine m tape k).head = 0)
    (hfind : find_transition m.transitions (run_machine m tape k).state
      (run_machine m tape k).tape (run_machine m tape k).head = .ok t)
    (hdir : t.direction = Direction.LEFT) (j : Nat) :
    (run_machine m tape (k + 1 + j)).status = Status.out_of_bounds ∧
    (run_machine m tape (k + 1 + j)).head = 0 ∧
    (run_machine m tape (k + 1 + j)).tape.capacity = (run_machine m tape k).tape.capacity ∧
    (∀ i, i ≠ 0 → (run_machine m tape (k + 1 + j)).tape.values[i]? =
      (run_machine m tape k).tape.values[i]?) ∧
    (run_machine m tape (k + 1 + j)).tape.values[0]? = some t.new_value := by
  have hstep : run_machine m tape (k + 1) =
      ⟨Status.out_of_bounds, t.new_state, 0,
        ⟨(run_machine m tape k).tape.values.set 0 t.new_value⟩⟩ := by
    rw [run_machine_succ, step_of_find_ok m _ t hrun hfind,
      apply_transition_left_zero m t _ hdir hhead]
  have hread := (find_transition_ok hfind).2.2
  rw [run_machine_halted m tape (k + 1) j (by rw [hstep]; simp), hstep]
  generalize run_machine m tape k = c at hhead hread ⊢
  rw [hhead] at hread
  have hlen : 0 < c.tape.values.length := by
    by_contra hcon
    rw [List.getElem?_eq_none (by omega)] at hread
    exact absurd hread (by simp)
  refine ⟨rfl, rfl, ?_, ?_, ?_⟩
  · simp only [Tape.capacity, List.length_set]
  · intro i hi
    simp only []
    rw [List.getElem?_set_ne (fun h => hi h.symm)]
  · simp only []
    rw [List.getElem?_set_self hlen]

/-- C9 on the tape `0`, `1` with the transition `q0 0 1 <- q1`: the run
halts out of bounds with the tape `1`, `1`. -/
theorem left_boundary_recoverability_witness :
    (run_machine ⟨"q0".toList, '_', [⟨"q0".toList, "q1".toList, '0', '1', .LEFT⟩]⟩
      ⟨['0', '1']⟩ (0 + 1 + 5)).status = Status.out_of_bounds :=
  (left_boundary_recoverability
    ⟨"q0".toList, '_', [⟨"q0".toList, "q1".toList, '0', '1', .LEFT⟩]⟩
    ⟨['0', '1']⟩ 0 ⟨"q0".toList, "q1".toList, '0', '1', .LEFT⟩
    (by decide) (by decide) (by decide) (by decide) 5).1

/-- C10. No-transition halt: when, after `k` iterations, the run is going,
the cell under the head holds `v` and no transition of the table has the
current state and the value `v`, the loop is left in that iteration with the
no-transition halt and stays so, with the state, the head and the tape as
they were; and with an empty table the run halts in its first iteration in
the initial state, with head 0 and the tape as it was given. -/
theorem no_transition_halt (m : Machine) (tape : Tape) :
    (∀ (k : Nat) (v : Char),
      (run_machine m tape k).status = Status.running →
      (run_machine m tape k).tape.values[(run_machine m tape k).head]? = some v →
      (∀ t, t ∈ m.transitions → ¬ (t.state = (run_machine m tape k).state ∧ t.value = v)) →
      ∀ j, run_machine m tape (k + 1 + j) =
        { run_machine m tape k with status := Status.no_transition }) ∧
    (m.transitions = [] →
      ∀ j, run_machine m tape (1 + j) =
        ⟨Status.no_transition, m.initial_state, 0, tape⟩) := by
  constructor
  · intro k v hrun hv hno j
    have hfind := find_transition_none m.transitions _ _ _ v hv hno
    have hstep := step_of_find_null m _ hrun hfind
    rw [run_machine_halted m tape (k + 1) j (by rw [run_machine_succ, hstep]; simp),
      run_machine_succ, hstep]
  · intro hempty j
    have hstep : run_machine m tape 1 = ⟨Status.no_transition, m.initial_state, 0, tape⟩ := by
      simp [run_machine, step, initial_config, hempty, find_transition]
    rw [run_machine_halted m tape 1 j (by rw [hstep]; simp), hstep]

/-- C10 on the tape `0`, `1` with the only transition `q0 1 0 -> q0`: the
run halts in state `q0` with the tape untouched; and with the empty table. -/
theorem no_transition_halt_witness :
    run_machine ⟨"q0".toList, '_', [⟨"q0".toList, "q0".toList, '1', '0', .RIGHT⟩]⟩
      ⟨['0', '1']⟩ (0 + 1 + 4) =
      ⟨Status.no_transition, "q0".toList, 0, ⟨['0', '1']⟩⟩ ∧
    run_machine ⟨"q0".toList, '_', []⟩ ⟨['0', '1']⟩ (1 + 4) =
      ⟨Status.no_transition, "q0".toList, 0, ⟨['0', '1']⟩⟩ :=
  ⟨(no_transition_halt
      ⟨"q0".toList, '_', [⟨"q0".toList, "q0".toList, '1', '0', .RIGHT⟩]⟩ ⟨['0', '1']⟩).1
      0 '0' (by decide) (by decide) (by decide) 4,
   (no_transition_halt ⟨"q0".toList, '_', []⟩ ⟨['0', '1']⟩).2 rfl 4⟩

/-- C12. Head-in-bounds invariant: on a tape given with at least one cell, at
the start of every iteration (and where the loop was left) the head is below
the number of cells; the lookup's read of the cell under the head is inside
the tape and no access outside the tape ever happens; and a left move that
keeps the run going has decremented a head that was above 0. -/
theorem head_in_bounds (m : Machine) (tape : Tape) (h : 0 < tape.capacity) (n : Nat) :
    (run_machine m tape n).head < (run_machine m tape n).tape.capacity ∧
    (run_machine m tape n).status ≠ Status.invalid_access ∧
    find_transition m.transitions (run_machine m tape n).state (run_machine m tape n).tape
      (run_machine m tape n).head ≠ .out_of_bounds ∧
    (∀ t, (run_machine m tape n).status = Status.running →
      find_transition m.transitions (run_machine m tape n).state (run_machine m tape n).tape
        (run_machine m tape n).head = .ok t →
      t.direction = Direction.LEFT →
      (run_machine m tape (n + 1)).status = Status.running →
      0 < (run_machine m tape n).head ∧
        (run_machine m tape (n + 1)).head + 1 = (run_machine m tape n).head) := by
  obtain ⟨hin, hs⟩ := run_machine_head_in_bounds m tape n h
  refine ⟨hin, hs, find_transition_in_bounds _ _ _ _ hin, ?_⟩
  intro t hrun hfind hdir hnext
  rw [run_machine_succ, step_of_find_ok m _ t hrun hfind] at hnext ⊢
  rcases apply_transition_cases m t _ hin with ⟨_, h0, e⟩ | ⟨_, h0, e⟩ | ⟨hd, _, _⟩ |
    ⟨hd, _, _⟩
  · rw [e] at hnext
    simp at hnext
  · rw [e]
    exact ⟨h0, by simp only; omega⟩
  · rw [hdir] at hd
    simp at hd
  · rw [hdir] at hd
    simp at hd

/-- C12 on the tape `0`, `1` with the transitions `q0 0 1 -> q1` and
`q1 1 0 <- q0`, after one iteration. -/
theorem head_in_bounds_witness :
    (run_machine ⟨"q0".toList, '_', [⟨"q0".toList, "q1".toList, '0', '1', .RIGHT⟩,
        ⟨"q1".toList, "q0".toList, '1', '0', .LEFT⟩]⟩ ⟨['0', '1']⟩ 1).head <
      (run_machine ⟨"q0".toList, '_', [⟨"q0".toList, "q1".toList, '0', '1', .RIGHT⟩,
        ⟨"q1".toList, "q0".toList, '1', '0', .LEFT⟩]⟩ ⟨['0', '1']⟩ 1).tape.capacity :=
  (head_in_bounds ⟨"q0".toList, '_', [⟨"q0".toList, "q1".toList, '0', '1', .RIGHT⟩,
    ⟨"q1".toList, "q0".toList, '1', '0', .LEFT⟩]⟩ ⟨['0', '1']⟩ (by decide) 1).1

/-- C13. Effect of one applied transition: in an iteration that selects `t`
and whose move succeeds (`t` moves right, or the head is above 0), the run
goes on, the state becomes `t.new_state`, the cell at the old head position
holds `t.new_value`, every other cell that existed keeps its value, and the
head is the old head minus one for LEFT and the old head plus one for
RIGHT. -/
theorem effect_of_applied_transition (m : Machine) (c : Config) (t : Transition)
    (hrun : c.status = Status.running)
    (hfind : find_transition m.transitions c.state c.tape c.head = .ok t)
    (hmove : t.direction = Direction.LEFT → 0 < c.head) :
    (step m c).status = Status.running ∧
    (step m c).state = t.new_state ∧
    (step m c).tape.values[c.head]? = some t.new_value ∧
    (∀ i, i < c.tape.capacity → i ≠ c.head →
      (step m c).tape.values[i]? = c.tape.values[i]?) ∧
    (t.direction = Direction.LEFT → (step m c).head + 1 = c.head) ∧
    (t.direction = Direction.RIGHT → (step m c).head = c.head + 1) := by
  have hread := (find_transition_ok hfind).2.2
  have hin : c.head < c.tape.capacity := by
    by_contra hcon
    rw [List.getElem?_eq_none (by simpa [Tape.capacity] using hcon)] at hread
    exact absurd hread (by simp)
  have hin2 : c.head < c.tape.values.length := hin
  rw [step_of_find_ok m c t hrun hfind]
  rcases apply_transition_cases m t c hin with ⟨hd, h0, _⟩ | ⟨hd, h0, e⟩ | ⟨hd, h0, e⟩ |
    ⟨hd, h0, e⟩
  · have := hmove hd
    omega
  · rw [e]
    refine ⟨rfl, rfl, ?_, ?_, ?_, ?_⟩
    · simp only
      rw [List.getElem?_set_self hin2]
    · intro i _ hne
      simp only
      rw [List.getElem?_set_ne (fun h => hne h.symm)]
    · intro _
      simp only
      omega
    · intro hr
      rw [hd] at hr
      simp at hr
  · rw [e]
    refine ⟨rfl, rfl, ?_, ?_, ?_, ?_⟩
    · simp only
      rw [List.getElem?_set_self hin2]
    · intro i _ hne
      simp only
      rw [List.getElem?_set_ne (fun h => hne h.symm)]
    · intro hl
      rw [hd] at hl
      simp at hl
    · intro _
      rfl
  · rw [e]
    refine ⟨rfl, rfl, ?_, ?_, ?_, ?_⟩
    · simp only
      rw [List.getElem?_append_left (by simp only [List.length_set]; exact hin2)]
      rw [List.getElem?_set_self hin2]
    · intro i hi hne
      simp only
      rw [List.getElem?_append_left (by simp only [List.length_set]; exact hi)]
      rw [List.getElem?_set_ne (fun h => hne h.symm)]
    · intro hl
      rw [hd] at hl
      simp at hl
    · intro _
      rfl

/-- C13 on the tape `0`, `1` in state `q0` at head 1 with the transition
`q0 1 0 <- q1`: the next configuration is state `q1`, head 0, tape `0`, `0`. -/
theorem effect_of_applied_transition_witness :
    (step ⟨"q0".toList, '_', [⟨"q0".toList, "q1".toList, '1', '0', .LEFT⟩]⟩
      ⟨Status.running, "q0".toList, 1, ⟨['0', '1']⟩⟩).state = "q1".toList ∧
    (step ⟨"q0".toList, '_', [⟨"q0".toList, "q1".toList, '1', '0', .LEFT⟩]⟩
      ⟨Status.running, "q0".toList, 1, ⟨['0', '1']⟩⟩).head + 1 = 1 :=
  have h := effect_of_applied_transition
    ⟨"q0".toList, '_', [⟨"q0".toList, "q1".toList, '1', '0', .LEFT⟩]⟩
    ⟨Status.running, "q0".toList, 1, ⟨['0', '1']⟩⟩
    ⟨"q0".toList, "q1".toList, '1', '0', .LEFT⟩ rfl (by decide) (by decide)
  ⟨h.2.1, h.2.2.2.2.1 rfl⟩

/-- C19. Reachable states come from the description: after any number of
iterations on any tape, the current state (the one reported at a
no-transition halt) is the initial state of the machine or the new state of
a transition of its table. -/
theorem reachable_states (m : Machine) (tape : Tape) (n : Nat) :
    (run_machine m tape n).state = m.initial_state ∨
      ∃ t, t ∈ m.transitions ∧ (run_machine m tape n).state = t.new_state := by
  induction n with
  | zero => exact Or.inl rfl
  | succ n ih =>
    rw [run_machine_succ]
    rcases step_state m (run_machine m tape n) with h | h
    · rw [h]
      exact ih
    · exact Or.inr h

/-- C15, as amended. The machine with initial state `q0`, default value `_`
and the single transition `q0 _ _ -> q0`, on the one-cell tape `_`: for
every `n` below `2 ^ 63`, when every `realloc` of up to `2 * n` cells
succeeds, the run is after `n` iterations still running in state `q0` with
head `n`, the head inside the tape and every cell equal to `_`. -/
theorem non_halting_while_memory_lasts (alloc : Nat → Bool) (n : Nat) (hn : n < 2 ^ 63)
    (halloc : ∀ s, s ≤ 2 * n → alloc s = true) :
    (run_machine_size_t alloc blank_loop ⟨['_']⟩ n).status = Status.running ∧
    (run_machine_size_t alloc blank_loop ⟨['_']⟩ n).state = "q0".toList ∧
    (run_machine_size_t alloc blank_loop ⟨['_']⟩ n).head = n ∧
    n < (run_machine_size_t alloc blank_loop ⟨['_']⟩ n).tape.capacity ∧
    ∀ c, c ∈ (run_machine_size_t alloc blank_loop ⟨['_']⟩ n).tape.values → c = '_' := by
  obtain ⟨k, h1, _, e⟩ := run_machine_size_t_blank_loop alloc n hn halloc
  rw [e]
  refine ⟨rfl, rfl, rfl, ?_, ?_⟩
  · simpa [Tape.capacity] using h1
  · intro c hc
    exact List.eq_of_mem_replicate hc

/-- C15 after 100 iterations with a `realloc` that always succeeds. -/
theorem non_halting_while_memory_lasts_witness :
    (run_machine_size_t (fun _ => true) blank_loop ⟨['_']⟩ 100).status = Status.running ∧
    (run_machine_size_t (fun _ => true) blank_loop ⟨['_']⟩ 100).head = 100 :=
  have h := non_halting_while_memory_lasts (fun _ => true) 100 (by norm_num) (fun _ _ => rfl)
  ⟨h.1, h.2.2.1⟩

/-- C15 fails as stated: the run does not go on for every `n`.  Even when
every `realloc` succeeds, in iteration `2 ^ 63` the head reaches the
capacity `2 ^ 63`, `capacity *= 2` wraps around to 0 and the `memset` that
follows writes outside the tape; and when `realloc` succeeds for at most 4
cells, its unchecked `NULL` result is written through in iteration 4. -/
theorem non_halting_machine_counterexample :
    (run_machine_size_t (fun _ => true) blank_loop ⟨['_']⟩ (2 ^ 63)).status =
      Status.invalid_access ∧
    (run_machine_size_t (fun s => decide (s ≤ 4)) blank_loop ⟨['_']⟩ 4).status =
      Status.invalid_access := by
  constructor
  · have h := run_machine_size_t_blank_loop_wrap (fun _ => true) (2 ^ 63 - 1) (by norm_num)
      (fun _ _ => rfl)
    have e : 2 ^ 63 - 1 + 1 = 2 ^ 63 := by norm_num
    rw [e] at h
    exact h
  · decide

/-- C20. Capacity only doubles, and only on demand: on a tape given with
`n >= 1` cells, after any number `j` of iterations the number of cells is
`n * 2 ^ k` for the least `k` with `n * 2 ^ k` above the largest head
index reached so far; the number of cells never decreases; and it increases
in an iteration only when the head was on the last cell and moves to the
old number of cells. -/
theorem capacity_only_doubles (m : Machine) (tape : Tape) (h : 0 < tape.capacity) (j : Nat) :
    (∃ k, (run_machine m tape j).tape.capacity = tape.capacity * 2 ^ k ∧
      max_head m tape j < tape.capacity * 2 ^ k ∧
      ∀ k', max_head m tape j < tape.capacity * 2 ^ k' → k ≤ k') ∧
    (run_machine m tape j).tape.capacity ≤ (run_machine m tape (j + 1)).tape.capacity ∧
    ((run_machine m tape j).tape.capacity < (run_machine m tape (j + 1)).tape.capacity →
      (run_machine m tape j).head + 1 = (run_machine m tape j).tape.capacity ∧
      (run_machine m tape (j + 1)).head = (run_machine m tape j).tape.capacity ∧
      (run_machine m tape (j + 1)).tape.capacity =
        2 * (run_machine m tape j).tape.capacity) := by
  obtain ⟨k, hcap, hmax, hleast⟩ := capacity_power_of_two m tape h j
  have hin := (run_machine_head_in_bounds m tape j h).1
  refine ⟨⟨k, hcap, hmax, ?_⟩, ?_, ?_⟩
  · intro k' hk
    by_contra hcon
    have := hleast k' (by omega)
    omega
  · rw [run_machine_succ]
    rcases step_capacity m _ hin with ⟨e1, _⟩ | ⟨e1, _, _⟩ <;> omega
  · rw [run_machine_succ]
    intro hlt
    rcases step_capacity m _ hin with ⟨e1, _⟩ | ⟨e1, e2, e3⟩
    · omega
    · exact ⟨e3, e2, e1⟩

/-- C20 on the tape `0`, `1` with the transitions `q0 0 1 -> q0` and
`q0 1 0 -> q0`, after two iterations: the tape has grown from 2 to 4
cells. -/
theorem capacity_only_doubles_witness :
    ∃ k, (run_machine ⟨"q0".toList, '_', [⟨"q0".toList, "q0".toList, '0', '1', .RIGHT⟩,
        ⟨"q0".toList, "q0".toList, '1', '0', .RIGHT⟩]⟩ ⟨['0', '1']⟩ 2).tape.capacity =
        (⟨['0', '1']⟩ : Tape).capacity * 2 ^ k ∧
      max_head ⟨"q0".toList, '_', [⟨"q0".toList, "q0".toList, '0', '1', .RIGHT⟩,
        ⟨"q0".toList, "q0".toList, '1', '0', .RIGHT⟩]⟩ ⟨['0', '1']⟩ 2 <
        (⟨['0', '1']⟩ : Tape).capacity * 2 ^ k ∧
      ∀ k', max_head ⟨"q0".toList, '_', [⟨"q0".toList, "q0".toList, '0', '1', .RIGHT⟩,
        ⟨"q0".toList, "q0".toList, '1', '0', .RIGHT⟩]⟩ ⟨['0', '1']⟩ 2 <
        (⟨['0', '1']⟩ : Tape).capacity * 2 ^ k' → k ≤ k' :=
  (capacity_only_doubles ⟨"q0".toList, '_', [⟨"q0".toList, "q0".toList, '0', '1', .RIGHT⟩,
    ⟨"q0".toList, "q0".toList, '1', '0', .RIGHT⟩]⟩ ⟨['0', '1']⟩ (by decide) 2).1

/-- C14. Dead rules are unreachable: when the entries at indices `i < j` of
the table have the same state and the same value, the machine with entry
`j` deleted has, on every tape and after every number of iterations, the
same configuration (status, state, head and cells) as the machine itself. -/
theorem dead_rules_unreachable (m : Machine) (i j : Nat) (ti tj : Transition)
    (hij : i < j) (hi : m.transitions[i]? = some ti) (hj : m.transitions[j]? = some tj)
    (hst : ti.state = tj.state) (hval : ti.value = tj.value) (tape : Tape) (n : Nat) :
    run_machine { m with transitions := m.transitions.eraseIdx j } tape n =
      run_machine m tape n := by
  induction n with
  | zero => rfl
  | succ n ih =>
    rw [run_machine_succ, run_machine_succ, ih]
    exact step_congr _ m _ rfl
      (find_transition_eraseIdx_dead m.transitions _ _ _ i j ti tj hij hi hj hst hval)

/-- C14 on the table `q0 0 1 -> a`, `q0 0 2 <- b`, `a 0 0 -> a`: deleting
entry 1 changes nothing in the run on the tape `0`, `0` after 3
iterations. -/
theorem dead_rules_unreachable_witness :
    run_machine ⟨"q0".toList, '_',
        [⟨"q0".toList, "a".toList, '0', '1', .RIGHT⟩,
         ⟨"a".toList, "a".toList, '0', '0', .RIGHT⟩]⟩ ⟨['0', '0']⟩ 3 =
    run_machine ⟨"q0".toList, '_',
        [⟨"q0".toList, "a".toList, '0', '1', .RIGHT⟩,
         ⟨"q0".toList, "b".toList, '0', '2', .LEFT⟩,
         ⟨"a".toList, "a".toList, '0', '0', .RIGHT⟩]⟩ ⟨['0', '0']⟩ 3 :=
  dead_rules_unreachable ⟨"q0".toList, '_',
        [⟨"q0".toList, "a".toList, '0', '1', .RIGHT⟩,
         ⟨"q0".toList, "b".toList, '0', '2', .LEFT⟩,
         ⟨"a".toList, "a".toList, '0', '0', .RIGHT⟩]⟩ 0 1
    ⟨"q0".toList, "a".toList, '0', '1', .RIGHT⟩ ⟨"q0".toList, "b".toList, '0', '2', .LEFT⟩
    (by decide) rfl rfl rfl rfl ⟨['0', '0']⟩ 3

/-- C11, as amended. Input seeding: for every input file content without zero
byte, the tape handed to `run_machine` is the content itself: it has as many
cells as the file has bytes, cell `i` is byte `i`, and the simulation starts
running at head 0. -/
theorem input_seeding (content : List Char) (m : Machine) (h : NUL ∉ content) :
    seed_tape (read_file content) = ⟨content⟩ ∧
    (seed_tape (read_file content)).capacity = content.length ∧
    (∀ i, i < content.length → (seed_tape (read_file content)).values[i]? = content[i]?) ∧
    (run_machine m (seed_tape (read_file content)) 0).head = 0 ∧
    (run_machine m (seed_tape (read_file content)) 0).status = Status.running := by
  have e : seed_tape (read_file content) = ⟨content⟩ := by
    rw [seed_tape_read_file, takeWhile_ne_NUL content h]
  rw [e]
  exact ⟨rfl, rfl, fun _ _ => rfl, rfl, rfl⟩

/-- C11 on the input bytes `01`. -/
theorem input_seeding_witness :
    seed_tape (read_file "01".toList) = ⟨"01".toList⟩ :=
  (input_seeding "01".toList ⟨[], '_', []⟩ (by decide)).1

/-- C11 fails as stated: for the three input bytes `0`, zero, `1` the tape
handed to `run_machine` has one cell, `0`, not three. -/
theorem input_seeding_counterexample :
    seed_tape (read_file ['0', NUL, '1']) = ⟨['0']⟩ ∧
    (seed_tape (read_file ['0', NUL, '1'])).capacity ≠ (['0', NUL, '1'] : List Char).length := by
  decide

/-- C16, as amended. Growth of a tape with at least one cell: when the head
is pushed to the number of cells `n >= 1`, the new capacity is `2 * n`, which
is `max 1 (2 * n)`, the added cells `[n, 2 * n)` hold the default value and
the cells below `n` are kept. -/
theorem growth_of_nonempty_tape (default_value : Char) (tape : Tape)
    (h : 0 < tape.capacity) :
    ∃ grown, grow default_value tape tape.capacity = some grown ∧
      grown.capacity = 2 * tape.capacity ∧
      grown.capacity = max 1 (2 * tape.capacity) ∧
      (∀ i, tape.capacity ≤ i → i < grown.capacity →
        grown.values[i]? = some default_value) ∧
      (∀ i, i < tape.capacity → grown.values[i]? = tape.values[i]?) := by
  refine ⟨⟨tape.values ++ List.replicate (tape.capacity * 2 - tape.capacity) default_value⟩,
    by simp [grow], ?_, ?_, ?_, ?_⟩
  · simp only [Tape.capacity, List.length_append, List.length_replicate]
    omega
  · simp only [Tape.capacity, List.length_append, List.length_replicate] at h ⊢
    omega
  · intro i h1 h2
    simp only [Tape.capacity, List.length_append, List.length_replicate] at h1 h2 ⊢
    rw [List.getElem?_append_right h1, List.getElem?_replicate, if_pos (by omega)]
  · intro i h1
    simp only [Tape.capacity] at h1 ⊢
    rw [List.getElem?_append_left h1]

/-- C16 on the one-cell tape `0` with default value `_`. -/
theorem growth_of_nonempty_tape_witness :
    ∃ grown, grow '_' ⟨['0']⟩ (⟨['0']⟩ : Tape).capacity = some grown ∧
      grown.capacity = 2 * (⟨['0']⟩ : Tape).capacity ∧
      grown.capacity = max 1 (2 * (⟨['0']⟩ : Tape).capacity) ∧
      (∀ i, (⟨['0']⟩ : Tape).capacity ≤ i → i < grown.capacity →
        grown.values[i]? = some '_') ∧
      (∀ i, i < (⟨['0']⟩ : Tape).capacity → grown.values[i]? = (⟨['0']⟩ : Tape).values[i]?) :=
  growth_of_nonempty_tape '_' ⟨['0']⟩ (by decide)

/-- C16 fails as stated: on the tape with zero cells the doubled capacity is
`0 * 2 = 0` and not 1.  With the head pushed to 1 the growth branch does not
yield a one-cell tape (the length of its `memset` wraps around); with the head
at 0 it leaves the tape with zero cells; and the run of the machine with the
transition `q0 _ _ -> q0` on that tape reads outside the tape in its first
iteration, the tape still having zero cells. -/
theorem growth_from_empty_tape_counterexample :
    (⟨[]⟩ : Tape).capacity * 2 = 0 ∧
    grow '_' ⟨[]⟩ 1 = none ∧
    grow '_' ⟨[]⟩ 0 = some ⟨[]⟩ ∧
    (run_machine ⟨"q0".toList, '_', [⟨"q0".toList, "q0".toList, '_', '_', .RIGHT⟩]⟩
      ⟨[]⟩ 1).status = Status.invalid_access ∧
    (run_machine ⟨"q0".toList, '_', [⟨"q0".toList, "q0".toList, '_', '_', .RIGHT⟩]⟩
      ⟨[]⟩ 1).tape.capacity = 0 := by
  decide

/-- C18. Parse inverts rendering: for every machine whose initial state and
new states hold no newline, whose states hold no space and whose identifiers
hold no `'\0'`, the text made of the line of the initial state, the line of
the default value and one line `state value new_value direction new_state`
per transition parses to that machine. -/
theorem parse_inverts_rendering (m : Machine)
    (h1 : '\n' ∉ m.initial_state) (h2 : NUL ∉ m.initial_state)
    (hl : ∀ t, t ∈ m.transitions →
      ' ' ∉ t.state ∧ NUL ∉ t.state ∧ '\n' ∉ t.new_state ∧ NUL ∉ t.new_state) :
    parse_machine (some (read_file
      (description_text m.initial_state m.default_value m.transitions))) = some (.ok m) :=
  parse_machine_description_text m.initial_state m.default_value m.transitions h1 h2 hl

/-- C18 on the machine `q0`, `_`, `q0 0 1 -> q1`, `q1 1 0 <- q0`. -/
theorem parse_inverts_rendering_witness :
    parse_machine (some (read_file (description_text "q0".toList '_'
      [⟨"q0".toList, "q1".toList, '0', '1', .RIGHT⟩,
       ⟨"q1".toList, "q0".toList, '1', '0', .LEFT⟩]))) =
    some (.ok ⟨"q0".toList, '_',
      [⟨"q0".toList, "q1".toList, '0', '1', .RIGHT⟩,
       ⟨"q1".toList, "q0".toList, '1', '0', .LEFT⟩]⟩) :=
  parse_inverts_rendering ⟨"q0".toList, '_',
      [⟨"q0".toList, "q1".toList, '0', '1', .RIGHT⟩,
       ⟨"q1".toList, "q0".toList, '1', '0', .LEFT⟩]⟩ (by decide) (by decide) (by decide)

/-- C17. Separators are skipped, not checked: in a description whose first
line holds no newline and whose transition lines have a state without space
and a new state without space (or without newline and `'\0'`), setting the
character after the default value and the characters after the value, after
the new value and after the direction token of any lines to any characters
gives exactly the result of `parse_machine` on the description with a
newline and spaces there. -/
theorem separators_skipped (s : List Char) (c s0 : Char)
    (lines : List (Transition × Char × Char × Char))
    (hs : '\n' ∉ s)
    (hl : ∀ l, l ∈ lines → ' ' ∉ l.1.state ∧
      (' ' ∉ l.1.new_state ∨ ('\n' ∉ l.1.new_state ∧ NUL ∉ l.1.new_state))) :
    parse_machine (some (read_file (description_text_with s c s0 lines))) =
      parse_machine (some (read_file (description_text s c (lines.map Prod.fst)))) := by
  simp only [parse_machine, read_file, description_text_with, description_text,
    List.append_assoc, List.cons_append, skip_until_append _ _ _ hs, List.drop_succ_cons,
    List.drop_zero]
  rw [strndup_append_left s _ _ (by simp), strndup_append_left s _ _ (by simp)]
  simp only [List.length_append, length_transition_lines_with]
  exact parse_transitions_with lines [] _ _ (by simp) hl

/-- C17 on `q0`, `_`, `q0 0 1 -> q1`, `q1 1 0 <- q0` with the character after
the default value set to `x` and the separators of the two lines set to
`a`, `b`, `c` and to tab, `-`, newline: the machine is the same. -/
theorem separators_skipped_witness :
    parse_machine (some (read_file (description_text_with "q0".toList '_' 'x'
      [(⟨"q0".toList, "q1".toList, '0', '1', .RIGHT⟩, 'a', 'b', 'c'),
       (⟨"q1".toList, "q0".toList, '1', '0', .LEFT⟩, '\t', '-', '\n')]))) =
    some (.ok ⟨"q0".toList, '_',
      [⟨"q0".toList, "q1".toList, '0', '1', .RIGHT⟩,
       ⟨"q1".toList, "q0".toList, '1', '0', .LEFT⟩]⟩) :=
  (separators_skipped "q0".toList '_' 'x'
      [(⟨"q0".toList, "q1".toList, '0', '1', .RIGHT⟩, 'a', 'b', 'c'),
       (⟨"q1".toList, "q0".toList, '1', '0', .LEFT⟩, '\t', '-', '\n')]
      (by decide) (by decide)).trans (by decide)

end Turc
